import Mathlib

/-!
# Reconciliation of AdGuard DNS rewrites against the running Proxmox instances

A shallow embedding of `main.go`.  The pure part of the program (the two maps,
the add/update pass, the confirm-then-delete pass and the four counters) is
translated function by function.  The world outside the program is explicit:

* the answers of `addRewrite` and `deleteRewrite` are given by an `Oracle`, which
  sees everything the run has done so far and the operation being issued;
* standard input is the list of characters that the operator has typed and the program
  has not read yet; `fmt.Scanln` is modelled on it as the library reads: one
  blank-separated word per call, the read ending at the newline or, when a second word
  follows on the line, one character into it;
* the order in which `range` visits a Go map is the order of the entry list of the
  `GoMap` value, so quantifying over every `GoMap` quantifies over every order.

Everything observable that the two passes do is appended to a trace: each mutating
store call with its result, each prompt with the word read at it, and each `[INFO]`
or `[ERR ]` line.  Debug lines (printed only with `-v`) and blank lines are not
recorded.  The counters are Go `int`s that start at zero and are only ever
incremented once per map entry, so they are modelled by natural numbers.
-/

namespace AdguardSync

/-! ## Data model -/

/-- AdGuard rewrite record `Rewrite`. -/
structure Rewrite where
  Domain : String
  Answer : String
deriving DecidableEq, Repr

/-- Proxmox resource `VMResource`; the field `Type` of the source is `Type_` here. -/
structure VMResource where
  VMID : Int
  Name : String
  Type_ : String
  Status : String
deriving DecidableEq, Repr

/-- Command line configuration `Config`. -/
structure Config where
  AdGuardHost : String
  AdGuardPort : String
  AdGuardUser : String
  AdGuardPass : String
  DNSDomain : String
  DryRun : Bool
  Verbose : Bool
deriving DecidableEq, Repr

/-- Counters `SyncStats`. -/
structure SyncStats where
  Added : Nat
  Updated : Nat
  Deleted : Nat
  Skipped : Nat
deriving DecidableEq, Repr

/-- A Go `map[string]string`: finitely many entries with pairwise distinct keys.  The
order of `entries` is the order in which a `range` loop visits the map. -/
structure GoMap where
  entries : List (String × String)
  nodup : (entries.map Prod.fst).Nodup

namespace GoMap

/-- The map returned by `make(map[string]string)`. -/
def empty : GoMap := ⟨[], List.nodup_nil⟩

/-- Two-valued index expression `v, exists := m[k]`. -/
def get? (m : GoMap) (k : String) : Option String := m.entries.lookup k

/-- One-valued index expression `m[k]`, the zero value `""` for a missing key. -/
def get (m : GoMap) (k : String) : String := (m.get? k).getD ""

/-- Builtin `len(m)`. -/
def len (m : GoMap) : Nat := m.entries.length

/-- Keys of the map, in `range` order. -/
def keys (m : GoMap) : List String := m.entries.map Prod.fst

/-- Assignment `m[k] = v`: an existing binding of `k` is replaced. -/
def set (m : GoMap) (k v : String) : GoMap :=
  ⟨m.entries.filter (fun e => e.1 ≠ k) ++ [(k, v)], by
    rw [List.map_append, List.nodup_append]
    refine ⟨m.nodup.sublist ((List.filter_sublist _).map _), by simp, ?_⟩
    intro a ha hb
    simp only [List.map_cons, List.map_nil, List.mem_singleton] at hb
    simp only [List.mem_map, List.mem_filter] at ha
    obtain ⟨e, ⟨_, he⟩, rfl⟩ := ha
    simp at he
    exact he hb⟩

end GoMap

/-- A choice of `range` order for the maps that `main` builds itself: the runtime may
visit the entries of a map in any order, and visits all of them. -/
structure RangeOrder where
  apply : GoMap → GoMap
  perm : ∀ m, (apply m).entries.Perm m.entries

/-- The `range` order that visits the entries as they are stored. -/
def RangeOrder.stored : RangeOrder := ⟨fun m => m, fun _ => List.Perm.refl _⟩

/-- A mutating call on the rewrite store: `addRewrite` or `deleteRewrite` with its
`domain` and `answer` arguments. -/
inductive StoreOp where
  | add (domain answer : String)
  | delete (domain answer : String)
deriving DecidableEq, Repr

/-- Domain name a store call is about. -/
def StoreOp.domain : StoreOp → String
  | .add d _ => d
  | .delete d _ => d

/-- The `[INFO]` and `[ERR ]` lines of the two passes and the closing summary, by format
string, with the values substituted into it (the error text of a failed call apart). -/
inductive Line where
  | dryAdd (domain newIP : String)
  | added (domain newIP : String)
  | failedAdd (domain : String)
  | dryUpdate (domain oldIP newIP : String)
  | failedDeleteOld (domain : String)
  | failedAddNew (domain : String)
  | updated (domain oldIP newIP : String)
  | found (n : Nat)
  | dryDelete (d ip : String)
  | failedDelete (d : String)
  | deleted (d ip : String)
  | skipped (d ip : String)
  | complete (stats : SyncStats)
deriving DecidableEq, Repr

/-- What a run does, in the order it does it. -/
inductive Event where
  | call (op : StoreOp) (ok : Bool)
  | prompt (d ip resp : String)
  | log (l : Line)
deriving DecidableEq, Repr

/-- Result of a store call (`true` for a `nil` error), as a function of what the run
has done so far and of the call. -/
abbrev Oracle := List Event → StoreOp → Bool

/-- State threaded through the run: the counters, the trace, and the characters of
standard input that have not been read yet. -/
structure World where
  stats : SyncStats
  trace : List Event
  input : List Char
deriving DecidableEq, Repr

namespace World

/-- State at the declaration `stats := SyncStats{}`. -/
def init (input : List Char) : World := ⟨⟨0, 0, 0, 0⟩, [], input⟩

/-- Append a line to the output. -/
def log (w : World) (l : Line) : World := { w with trace := w.trace ++ [Event.log l] }

/-- Statement `stats.Added++`. -/
def incAdded (w : World) : World := { w with stats := { w.stats with Added := w.stats.Added + 1 } }

/-- Statement `stats.Updated++`. -/
def incUpdated (w : World) : World :=
  { w with stats := { w.stats with Updated := w.stats.Updated + 1 } }

/-- Statement `stats.Deleted++`. -/
def incDeleted (w : World) : World :=
  { w with stats := { w.stats with Deleted := w.stats.Deleted + 1 } }

/-- Statement `stats.Skipped++`. -/
def incSkipped (w : World) : World :=
  { w with stats := { w.stats with Skipped := w.stats.Skipped + 1 } }

end World

/-! ## Collaborators -/

/-- Call `addRewrite(config, domain, answer, _)`: the request is issued and the store
answers; the boolean is `err == nil`. -/
def addRewrite (ok : Oracle) (w : World) (domain answer : String) : Bool × World :=
  let r := ok w.trace (.add domain answer)
  (r, { w with trace := w.trace ++ [Event.call (.add domain answer) r] })

/-- Call `deleteRewrite(config, domain, answer, _)`; the boolean is `err == nil`. -/
def deleteRewrite (ok : Oracle) (w : World) (domain answer : String) : Bool × World :=
  let r := ok w.trace (.delete domain answer)
  (r, { w with trace := w.trace ++ [Event.call (.delete domain answer) r] })

/-- Library function `isSpace` of package `fmt`: the white space of Unicode, by code
point (tab to carriage return, space, U+0085, U+00A0, U+1680, U+2000 to U+200A, U+2028,
U+2029, U+202F, U+205F, U+3000). -/
def isSpace (c : Char) : Bool :=
  (9 ≤ c.toNat && c.toNat ≤ 13) || c.toNat == 32 || c.toNat == 133 || c.toNat == 160
    || c.toNat == 5760 || (8192 ≤ c.toNat && c.toNat ≤ 8202) || c.toNat == 8232
    || c.toNat == 8233 || c.toNat == 8239 || c.toNat == 8287 || c.toNat == 12288

/-- The newline character. -/
def newline : Char := Char.ofNat 10

/-- Library method `SkipSpace` of package `fmt` as `Scanln` runs it (a newline is not a
space): blanks are read and dropped up to the first character that is not one, which
stays unread; a newline met on the way is read and raises "unexpected newline", and the
result is then the error with the input after that newline.  A carriage return is a
blank like any other. -/
def skipSpace : List Char → Except (List Char) (List Char)
  | [] => .ok []
  | c :: rest =>
    if c = newline then .error rest
    else if isSpace c then skipSpace rest
    else .ok (c :: rest)

/-- The check for the end of the line that `Scanln` makes after it has stored the word:
blanks are read and dropped, a newline or the end of the input ends the check, and any
other character is read and raises "expected newline".  The result is the input left
unread. -/
def expectNewline : List Char → List Char
  | [] => []
  | c :: rest =>
    if c = newline then rest
    else if isSpace c then expectNewline rest
    else rest

/-- Library function `fmt.Scanln` with one `*string` argument, on the unread input: the
word stored through the pointer (nothing is stored, so the string stays empty, on an
empty line and at the end of the input) and the input left unread.  The error that the
library returns is not part of the result, as the program drops it. -/
def scanWord (input : List Char) : String × List Char :=
  match skipSpace input with
  | .error rest => ("", rest)
  | .ok [] => ("", [])
  | .ok (c :: rest) =>
    (⟨(c :: rest).takeWhile (fun x => !isSpace x)⟩,
      expectNewline ((c :: rest).dropWhile (fun x => !isSpace x)))

/-- Statements `var resp string; fmt.Scanln(&resp)`. -/
def scanln (w : World) : String × World :=
  ((scanWord w.input).1, { w with input := (scanWord w.input).2 })

/-- Library function `strings.ToLower`, on the letters `A` to `Z`.  The Unicode mapping of
the library lowers no other character to `y`, `e` or `s`, so the two agree on whether
the result is `"y"` or `"yes"`. -/
def toLower (s : String) : String := ⟨s.data.map Char.toLower⟩

/-- Library function `sort.Strings`: the strings in increasing order.  The order is that
of the code points, which for UTF-8 text is the byte-wise order of the library. -/
def sortStrings (l : List String) : List String :=
  l.insertionSort (fun a b => a.data ≤ b.data)

/-! ## The program -/

/-- Name under which an instance is registered (the `fqdn` of the loop body). -/
def fqdn (config : Config) (vm : VMResource) : String :=
  if config.DNSDomain ≠ "" then vm.Name ++ "." ++ config.DNSDomain else vm.Name

/-- Loop `for _, vm := range vms` building `desired`.  Each instance comes with the
address that `getVMIP` returned for it. -/
def buildDesired (config : Config) (vms : List (VMResource × String)) : GoMap :=
  vms.foldl (fun desired p => if p.2 = "" then desired else desired.set (fqdn config p.1) p.2)
    GoMap.empty

/-- Loop `for _, r := range rewrites` building `current`. -/
def buildCurrent (rewrites : List Rewrite) : GoMap :=
  rewrites.foldl (fun current r => current.set r.Domain r.Answer) GoMap.empty

/-- Body of the loop of phase 1 for the desired entry `e = (domain, newIP)`. -/
def syncEntry (config : Config) (ok : Oracle) (current : GoMap) (w : World)
    (e : String × String) : World :=
  match current.get? e.1 with
  | none =>
    if config.DryRun then (w.log (.dryAdd e.1 e.2)).incAdded
    else
      match addRewrite ok w e.1 e.2 with
      | (false, w1) => w1.log (.failedAdd e.1)
      | (true, w1) => (w1.log (.added e.1 e.2)).incAdded
  | some oldIP =>
    if oldIP ≠ e.2 then
      if config.DryRun then (w.log (.dryUpdate e.1 oldIP e.2)).incUpdated
      else
        match deleteRewrite ok w e.1 oldIP with
        | (false, w1) => w1.log (.failedDeleteOld e.1)
        | (true, w1) =>
          match addRewrite ok w1 e.1 e.2 with
          | (false, w2) => w2.log (.failedAddNew e.1)
          | (true, w2) => (w2.log (.updated e.1 oldIP e.2)).incUpdated
    else w

/-- Phase 1, `for domain, newIP := range desired`. -/
def phase1 (config : Config) (ok : Oracle) (desired current : GoMap) (w : World) : World :=
  desired.entries.foldl (syncEntry config ok current) w

/-- Slice `toDelete` as the loop `for d := range current` leaves it. -/
def toDelete (desired current : GoMap) : List String :=
  current.keys.filter (fun d => (desired.get? d).isNone)

/-- Test `strings.ToLower(resp) == "y" || strings.ToLower(resp) == "yes"`. -/
def isYes (resp : String) : Bool := toLower resp == "y" || toLower resp == "yes"

/-- Body of the loop over the sorted `toDelete` for the candidate `d`. -/
def confirmEntry (config : Config) (ok : Oracle) (current : GoMap) (w : World)
    (d : String) : World :=
  let ip := current.get d
  match scanln w with
  | (resp, w1) =>
    let w2 : World := { w1 with trace := w1.trace ++ [Event.prompt d ip resp] }
    if isYes resp then
      if config.DryRun then (w2.log (.dryDelete d ip)).incDeleted
      else
        match deleteRewrite ok w2 d ip with
        | (false, w3) => w3.log (.failedDelete d)
        | (true, w3) => (w3.log (.deleted d ip)).incDeleted
    else (w2.log (.skipped d ip)).incSkipped

/-- Phase 2: collect the candidates, sort them, confirm and delete. -/
def phase2 (config : Config) (ok : Oracle) (desired current : GoMap) (w : World) : World :=
  let toDel := toDelete desired current
  if toDel.length > 0 then
    (sortStrings toDel).foldl (confirmEntry config ok current) (w.log (.found toDel.length))
  else w

/-- Both phases and the closing summary, from `stats := SyncStats{}` to the end of
`main`. -/
def reconcile (config : Config) (ok : Oracle) (desired current : GoMap)
    (input : List Char) : World :=
  let w := phase2 config ok desired current (phase1 config ok desired current (World.init input))
  w.log (.complete w.stats)

/-- The three ways in which `main` ends once the store has been reached and the
instances have been listed: `os.Exit(0)` after "Nothing to do.", `os.Exit(0)` after
"nothing to sync", or the end of the function. -/
inductive Outcome where
  | nothingToDo
  | nothingToSync
  | complete (w : World)
deriving DecidableEq, Repr

/-- Function `main` from the list of running instances on.  `vms` is the result of
`fetchProxmoxVMs`, each instance with the address `getVMIP` returned for it, and
`rewrites` is the result of `fetchAdGuardRewrites`; the runs that end in `os.Exit(1)`
(bad flags, store unreachable, a listing that cannot be read) are not covered. -/
def main (config : Config) (vms : List (VMResource × String)) (rewrites : List Rewrite)
    (rangeDesired rangeCurrent : RangeOrder) (ok : Oracle) (input : List Char) : Outcome :=
  if vms.length = 0 then .nothingToDo
  else
    let desired := buildDesired config vms
    if desired.len = 0 then .nothingToSync
    else
      let current := buildCurrent rewrites
      .complete (reconcile config ok (rangeDesired.apply desired) (rangeCurrent.apply current) input)

/-- Events of a run, none for a run that ends early. -/
def Outcome.trace : Outcome → List Event
  | .complete w => w.trace
  | _ => []

/-! ## Observations on a trace -/

/-- Mutating store calls of a trace, in the order they were issued, each with its
result. -/
def storeCalls (t : List Event) : List (StoreOp × Bool) :=
  t.filterMap (fun ev => match ev with
    | .call op b => some (op, b)
    | _ => none)

/-- Store calls of a trace that are about the domain name `name`. -/
def callsOn (name : String) (t : List Event) : List (StoreOp × Bool) :=
  (storeCalls t).filter (fun c => c.1.domain = name)

/-- Prompts of a trace in the order they were shown: name, address, word read. -/
def prompts (t : List Event) : List (String × String × String) :=
  t.filterMap (fun ev => match ev with
    | .prompt d ip resp => some (d, ip, resp)
    | _ => none)

/-- Domain name a line speaks of, none for the two lines that give totals. -/
def Line.domain? : Line → Option String
  | .dryAdd d _ => some d
  | .added d _ => some d
  | .failedAdd d => some d
  | .dryUpdate d _ _ => some d
  | .failedDeleteOld d => some d
  | .failedAddNew d => some d
  | .updated d _ _ => some d
  | .found _ => none
  | .dryDelete d _ => some d
  | .failedDelete d => some d
  | .deleted d _ => some d
  | .skipped d _ => some d
  | .complete _ => none

/-- Domain name an event is about. -/
def Event.name? : Event → Option String
  | .call op _ => some op.domain
  | .prompt d _ _ => some d
  | .log l => l.domain?

/-- Lines that go with `stats.Added++`. -/
def isAddedLine : Event → Bool
  | .log (.dryAdd _ _) => true
  | .log (.added _ _) => true
  | _ => false

/-- Lines that go with `stats.Updated++`. -/
def isUpdatedLine : Event → Bool
  | .log (.dryUpdate _ _ _) => true
  | .log (.updated _ _ _) => true
  | _ => false

/-- Lines that go with `stats.Deleted++`. -/
def isDeletedLine : Event → Bool
  | .log (.dryDelete _ _) => true
  | .log (.deleted _ _) => true
  | _ => false

/-- Lines that go with `stats.Skipped++`. -/
def isSkippedLine : Event → Bool
  | .log (.skipped _ _) => true
  | _ => false

/-- Counters read off the lines of a trace. -/
def statsOf (t : List Event) : SyncStats :=
  ⟨t.countP isAddedLine, t.countP isUpdatedLine, t.countP isDeletedLine, t.countP isSkippedLine⟩

/-- Events that the body of the phase 1 loop appends for the entry `e` when the trace so
far is `hist`. -/
def syncEvents (config : Config) (ok : Oracle) (current : GoMap) (hist : List Event)
    (e : String × String) : List Event :=
  match current.get? e.1 with
  | none =>
    if config.DryRun then [.log (.dryAdd e.1 e.2)]
    else if ok hist (.add e.1 e.2) then [.call (.add e.1 e.2) true, .log (.added e.1 e.2)]
    else [.call (.add e.1 e.2) false, .log (.failedAdd e.1)]
  | some oldIP =>
    if oldIP ≠ e.2 then
      if config.DryRun then [.log (.dryUpdate e.1 oldIP e.2)]
      else if ok hist (.delete e.1 oldIP) then
        if ok (hist ++ [.call (.delete e.1 oldIP) true]) (.add e.1 e.2) then
          [.call (.delete e.1 oldIP) true, .call (.add e.1 e.2) true,
            .log (.updated e.1 oldIP e.2)]
        else
          [.call (.delete e.1 oldIP) true, .call (.add e.1 e.2) false, .log (.failedAddNew e.1)]
      else [.call (.delete e.1 oldIP) false, .log (.failedDeleteOld e.1)]
    else []

/-- Events that the body of the phase 2 loop appends for the candidate `d` when the trace
so far is `hist` and the word read is `resp`. -/
def confirmEvents (config : Config) (ok : Oracle) (current : GoMap) (hist : List Event)
    (resp d : String) : List Event :=
  .prompt d (current.get d) resp ::
    (if isYes resp then
      if config.DryRun then [.log (.dryDelete d (current.get d))]
      else if ok (hist ++ [.prompt d (current.get d) resp]) (.delete d (current.get d)) then
        [.call (.delete d (current.get d)) true, .log (.deleted d (current.get d))]
      else [.call (.delete d (current.get d)) false, .log (.failedDelete d)]
    else [.log (.skipped d (current.get d))])

/-- Test that an event is about the domain name `n`. -/
def about (n : String) (x : Event) : Bool := decide (x.name? = some n)

/-- Candidates of a list paired with the words read for them: for each candidate in turn
the word that `fmt.Scanln` stores, read from what the reads before it left. -/
def answers : List String → List Char → List (String × String)
  | [], _ => []
  | d :: ds, input => (d, (scanWord input).1) :: answers ds (scanWord input).2

/-- Standard input when the operator types the given responses, each followed by the
enter key, and nothing else. -/
def typed (lines : List String) : List Char :=
  lines.flatMap (fun l => l.data ++ [newline])

/-- Candidates of a list paired with the responses of the operator as the
specification words it: the first response for the first prompt, the second for the
second and so on, the empty response once there is no more. -/
def lineAnswers : List String → List String → List (String × String)
  | [], _ => []
  | d :: ds, lines => (d, lines.headD "") :: lineAnswers ds lines.tail

/-- A response that is one word or nothing: no blank in it. -/
def oneWord (l : String) : Bool := l.data.all (fun c => !isSpace c)

/-- Modelled from the spec: the effect of one mutating call on the listing of the rewrite
store, which the program reaches over HTTP and which is not part of it.  A successful
add inserts the pair, a successful delete removes it, a failed call changes nothing. -/
def applyCall (store : List Rewrite) (c : StoreOp × Bool) : List Rewrite :=
  match c with
  | (.add d a, true) => store ++ [⟨d, a⟩]
  | (.delete d a, true) => store.filter (fun r => r ≠ ⟨d, a⟩)
  | (_, false) => store

/-- Listing of the store after the calls of a trace, from the listing `store`. -/
def storeAfter (store : List Rewrite) (t : List Event) : List Rewrite :=
  (storeCalls t).foldl applyCall store

/-- The add of the entry `e`, whose name the current map does not hold, succeeded in the
trace `t`. -/
def addSucceeded (current : GoMap) (e : String × String) (t : List Event) : Bool :=
  (current.get? e.1).isNone && decide (Event.call (.add e.1 e.2) true ∈ t)

/-- The update of the entry `e`, whose name the current map holds with another address,
went through in the trace `t`: the delete of the old pair and the add of the new pair
both succeeded. -/
def updateSucceeded (current : GoMap) (e : String × String) (t : List Event) : Bool :=
  match current.get? e.1 with
  | some oldIP =>
    decide (oldIP ≠ e.2) && decide (Event.call (.delete e.1 oldIP) true ∈ t)
      && decide (Event.call (.add e.1 e.2) true ∈ t)
  | none => false

/-! ## The example scenario of the specification -/

/-- Live configuration with the default host and port and no suffix. -/
def exampleConfig : Config := ⟨"adguard", "3000", "user", "pass", "", false, false⟩

/-- Desired map `{"a.lan": "10.0.0.1", "b.lan": "10.0.0.2"}`. -/
def exampleDesired : GoMap := ⟨[("a.lan", "10.0.0.1"), ("b.lan", "10.0.0.2")], by decide⟩

/-- Current map `{"a.lan": "10.0.0.1", "c.lan": "10.0.0.9"}`. -/
def exampleCurrent : GoMap := ⟨[("a.lan", "10.0.0.1"), ("c.lan", "10.0.0.9")], by decide⟩

/-- Current map in which `a.lan` has an address other than the desired one. -/
def staleCurrent : GoMap := ⟨[("a.lan", "10.0.0.7"), ("c.lan", "10.0.0.9")], by decide⟩

/-- Store that accepts every call. -/
def okAlways : Oracle := fun _ _ => true

/-- Store that rejects every call. -/
def okNever : Oracle := fun _ _ => false

/-- Store listing with two records that no instance stands for. -/
def strayCurrent : GoMap := ⟨[("z.lan", "10.0.0.8"), ("c.lan", "10.0.0.9")], by decide⟩

/-- The map `strayCurrent` visited in the other order. -/
def strayCurrentSwapped : GoMap := ⟨[("c.lan", "10.0.0.9"), ("z.lan", "10.0.0.8")], by decide⟩

/-- The map `exampleDesired` visited in the other order. -/
def exampleDesiredSwapped : GoMap :=
  ⟨[("b.lan", "10.0.0.2"), ("a.lan", "10.0.0.1")], by decide⟩

/-- Counters as the specification words them: `added` the number of desired names absent
from the current map, `updated` the number of desired names present with a different
address, `deleted` the number of confirmed candidates and `skipped` the number of
declined candidates, the candidates taken in sorted order with one read each. -/
def intendedStats (desired current : GoMap) (input : List Char) : SyncStats :=
  ⟨desired.entries.countP (fun e => (current.get? e.1).isNone),
    desired.entries.countP (fun e =>
      match current.get? e.1 with
      | some oldIP => decide (oldIP ≠ e.2)
      | none => false),
    (answers (sortStrings (toDelete desired current)) input).countP (fun a => isYes a.2),
    (answers (sortStrings (toDelete desired current)) input).countP (fun a => !isYes a.2)⟩

/-- A run of both phases against the store whose listing is `listing`, the current map
built from that listing and visited in the order `rangeCurrent`. -/
def runOn (config : Config) (ok : Oracle) (desired : GoMap) (listing : List Rewrite)
    (rangeCurrent : RangeOrder) (input : List Char) : World :=
  reconcile config ok desired (rangeCurrent.apply (buildCurrent listing)) input

/-- Listing of the store once the calls of such a run have been applied to it. -/
def listingAfter (config : Config) (ok : Oracle) (desired : GoMap) (listing : List Rewrite)
    (rangeCurrent : RangeOrder) (input : List Char) : List Rewrite :=
  storeAfter listing (runOn config ok desired listing rangeCurrent input).trace

/-! ## Association lists and Go maps -/

theorem lookup_eq_some_of_mem {l : List (String × String)} (hl : (l.map Prod.fst).Nodup)
    {k v : String} (h : (k, v) ∈ l) : l.lookup k = some v := by
  induction l with
  | nil => simp at h
  | cons p l ih =>
    obtain ⟨k', v'⟩ := p
    simp only [List.map_cons, List.nodup_cons, List.mem_map, not_exists, not_and] at hl
    rw [List.lookup_cons]
    rcases List.mem_cons.1 h with heq | hmem
    · cases heq
      simp
    · have hne : k ≠ k' := fun hk => hl.1 (k, v) hmem (by simp [hk])
      have hb : (k == k') = false := by simpa using hne
      rw [hb]
      exact ih hl.2 hmem

theorem mem_of_lookup_eq_some {l : List (String × String)} {k v : String}
    (h : l.lookup k = some v) : (k, v) ∈ l := by
  induction l with
  | nil => simp at h
  | cons p l ih =>
    obtain ⟨k', v'⟩ := p
    rw [List.lookup_cons] at h
    by_cases hk : k = k'
    · subst hk
      simp at h
      simp [h]
    · have hb : (k == k') = false := by simpa using hk
      rw [hb] at h
      exact List.mem_cons_of_mem _ (ih h)

theorem lookup_eq_none_iff_not_mem {l : List (String × String)} {k : String} :
    l.lookup k = none ↔ k ∉ l.map Prod.fst := by
  induction l with
  | nil => simp
  | cons p l ih =>
    obtain ⟨k', v'⟩ := p
    rw [List.lookup_cons]
    by_cases hk : k = k'
    · subst hk
      simp
    · have hb : (k == k') = false := by simpa using hk
      rw [hb]
      simp only [ih, List.map_cons, List.mem_cons, not_or]
      exact ⟨fun h => ⟨hk, h⟩, fun h => h.2⟩

theorem GoMap.get?_eq_some_iff (m : GoMap) (k v : String) :
    m.get? k = some v ↔ (k, v) ∈ m.entries :=
  ⟨mem_of_lookup_eq_some, lookup_eq_some_of_mem m.nodup⟩

theorem GoMap.get?_eq_none_iff (m : GoMap) (k : String) : m.get? k = none ↔ k ∉ m.keys :=
  lookup_eq_none_iff_not_mem

theorem GoMap.get?_of_mem (m : GoMap) {e : String × String} (h : e ∈ m.entries) :
    m.get? e.1 = some e.2 :=
  (m.get?_eq_some_iff e.1 e.2).2 h

theorem GoMap.get?_congr {m m' : GoMap} (h : m'.entries.Perm m.entries) (k : String) :
    m'.get? k = m.get? k := by
  cases hm : m.get? k with
  | none =>
    rw [GoMap.get?_eq_none_iff] at hm ⊢
    intro hk
    exact hm ((h.map Prod.fst).mem_iff.1 hk)
  | some v =>
    rw [GoMap.get?_eq_some_iff] at hm ⊢
    exact h.mem_iff.2 hm

theorem GoMap.get_congr {m m' : GoMap} (h : m'.entries.Perm m.entries) (k : String) :
    m'.get k = m.get k := by
  unfold GoMap.get
  rw [GoMap.get?_congr h]

theorem GoMap.get?_empty (k : String) : GoMap.empty.get? k = none := rfl

theorem GoMap.get?_set (m : GoMap) (k v k' : String) :
    (m.set k v).get? k' = if k' = k then some v else m.get? k' := by
  by_cases hk : k' = k
  · subst hk
    rw [if_pos rfl, GoMap.get?_eq_some_iff]
    simp [GoMap.set]
  · rw [if_neg hk]
    cases hm : m.get? k' with
    | none =>
      rw [GoMap.get?_eq_none_iff] at hm ⊢
      intro hmem
      apply hm
      simp only [GoMap.keys, GoMap.set, List.map_append, List.mem_append, List.mem_map,
        List.mem_filter, List.map_cons, List.map_nil, List.mem_singleton] at hmem ⊢
      rcases hmem with ⟨e, ⟨he, _⟩, rfl⟩ | h
      · exact ⟨e, he, rfl⟩
      · exact absurd h hk
    | some v' =>
      rw [GoMap.get?_eq_some_iff] at hm ⊢
      simp only [GoMap.set, List.mem_append, List.mem_filter, List.mem_singleton]
      left
      exact ⟨hm, by simpa using hk⟩

/-! ## One step of each loop -/

theorem syncEntry_trace (config : Config) (ok : Oracle) (current : GoMap) (w : World)
    (e : String × String) :
    (syncEntry config ok current w e).trace
      = w.trace ++ syncEvents config ok current w.trace e := by
  unfold syncEntry syncEvents
  cases hget : current.get? e.1 with
  | none =>
    by_cases hd : config.DryRun = true
    · simp [hd, World.log, World.incAdded]
    · cases hok : ok w.trace (.add e.1 e.2) <;>
        simp [hd, hok, addRewrite, World.log, World.incAdded]
  | some oldIP =>
    by_cases hne : oldIP = e.2
    · simp [hne]
    · by_cases hd : config.DryRun = true
      · simp [hne, hd, World.log, World.incUpdated]
      · cases hok : ok w.trace (.delete e.1 oldIP)
        · simp [hne, hd, hok, deleteRewrite, World.log]
        · cases hok2 : ok (w.trace ++ [.call (.delete e.1 oldIP) true]) (.add e.1 e.2) <;>
            simp [hne, hd, hok, hok2, deleteRewrite, addRewrite, World.log, World.incUpdated]

theorem syncEntry_input (config : Config) (ok : Oracle) (current : GoMap) (w : World)
    (e : String × String) : (syncEntry config ok current w e).input = w.input := by
  unfold syncEntry
  cases hget : current.get? e.1 with
  | none =>
    by_cases hd : config.DryRun = true
    · simp [hd, World.log, World.incAdded]
    · cases hok : ok w.trace (.add e.1 e.2) <;>
        simp [hd, hok, addRewrite, World.log, World.incAdded]
  | some oldIP =>
    by_cases hne : oldIP = e.2
    · simp [hne]
    · by_cases hd : config.DryRun = true
      · simp [hne, hd, World.log, World.incUpdated]
      · cases hok : ok w.trace (.delete e.1 oldIP)
        · simp [hne, hd, hok, deleteRewrite, World.log]
        · cases hok2 : ok (w.trace ++ [.call (.delete e.1 oldIP) true]) (.add e.1 e.2) <;>
            simp [hne, hd, hok, hok2, deleteRewrite, addRewrite, World.log, World.incUpdated]

theorem syncEntry_stats (config : Config) (ok : Oracle) (current : GoMap) (w : World)
    (e : String × String) (h : w.stats = statsOf w.trace) :
    (syncEntry config ok current w e).stats
      = statsOf (syncEntry config ok current w e).trace := by
  unfold syncEntry
  cases hget : current.get? e.1 with
  | none =>
    by_cases hd : config.DryRun = true
    · simp [hd, World.log, World.incAdded, h, statsOf, List.countP_append, isAddedLine,
        isUpdatedLine, isDeletedLine, isSkippedLine]
    · cases hok : ok w.trace (.add e.1 e.2) <;>
        simp [hd, hok, addRewrite, World.log, World.incAdded, h, statsOf, List.countP_append,
          isAddedLine, isUpdatedLine, isDeletedLine, isSkippedLine]
  | some oldIP =>
    by_cases hne : oldIP = e.2
    · simp [hne, h]
    · by_cases hd : config.DryRun = true
      · simp [hne, hd, World.log, World.incUpdated, h, statsOf, List.countP_append, isAddedLine,
          isUpdatedLine, isDeletedLine, isSkippedLine]
      · cases hok : ok w.trace (.delete e.1 oldIP)
        · simp [hne, hd, hok, deleteRewrite, World.log, h, statsOf, List.countP_append,
            isAddedLine, isUpdatedLine, isDeletedLine, isSkippedLine]
        · cases hok2 : ok (w.trace ++ [.call (.delete e.1 oldIP) true]) (.add e.1 e.2) <;>
            simp [hne, hd, hok, hok2, deleteRewrite, addRewrite, World.log, World.incUpdated, h,
              statsOf, List.countP_append, isAddedLine, isUpdatedLine, isDeletedLine,
              isSkippedLine]

theorem syncEvents_name (config : Config) (ok : Oracle) (current : GoMap) (hist : List Event)
    (e : String × String) (x : Event) (hx : x ∈ syncEvents config ok current hist e) :
    x.name? = some e.1 := by
  unfold syncEvents at hx
  split at hx
  · split at hx
    · simp at hx; subst hx; rfl
    · split at hx <;> simp at hx <;> rcases hx with rfl | rfl <;> rfl
  · split at hx
    · split at hx
      · simp at hx; subst hx; rfl
      · split at hx
        · split at hx <;> simp at hx <;> rcases hx with rfl | rfl | rfl <;> rfl
        · simp at hx; rcases hx with rfl | rfl <;> rfl
    · simp at hx

theorem confirmEntry_trace (config : Config) (ok : Oracle) (current : GoMap) (w : World)
    (d : String) :
    (confirmEntry config ok current w d).trace
      = w.trace ++ confirmEvents config ok current w.trace (scanWord w.input).1 d := by
  unfold confirmEntry confirmEvents scanln
  by_cases hy : isYes (scanWord w.input).1 = true
  · by_cases hd : config.DryRun = true
    · simp [hy, hd, World.log, World.incDeleted]
    · cases hok : ok (w.trace ++ [.prompt d (current.get d) (scanWord w.input).1])
          (.delete d (current.get d)) <;>
        simp [hy, hd, hok, deleteRewrite, World.log, World.incDeleted]
  · simp [hy, World.log, World.incSkipped]

theorem confirmEntry_input (config : Config) (ok : Oracle) (current : GoMap) (w : World)
    (d : String) : (confirmEntry config ok current w d).input = (scanWord w.input).2 := by
  unfold confirmEntry scanln
  by_cases hy : isYes (scanWord w.input).1 = true
  · by_cases hd : config.DryRun = true
    · simp [hy, hd, World.log, World.incDeleted]
    · cases hok : ok (w.trace ++ [.prompt d (current.get d) (scanWord w.input).1])
          (.delete d (current.get d)) <;>
        simp [hy, hd, hok, deleteRewrite, World.log, World.incDeleted]
  · simp [hy, World.log, World.incSkipped]

theorem confirmEntry_stats (config : Config) (ok : Oracle) (current : GoMap) (w : World)
    (d : String) (h : w.stats = statsOf w.trace) :
    (confirmEntry config ok current w d).stats
      = statsOf (confirmEntry config ok current w d).trace := by
  unfold confirmEntry scanln
  by_cases hy : isYes (scanWord w.input).1 = true
  · by_cases hd : config.DryRun = true
    · simp [hy, hd, World.log, World.incDeleted, h, statsOf, List.countP_append, isAddedLine,
        isUpdatedLine, isDeletedLine, isSkippedLine]
    · cases hok : ok (w.trace ++ [.prompt d (current.get d) (scanWord w.input).1])
          (.delete d (current.get d)) <;>
        simp [hy, hd, hok, deleteRewrite, World.log, World.incDeleted, h, statsOf,
          List.countP_append, isAddedLine, isUpdatedLine, isDeletedLine, isSkippedLine]
  · simp [hy, World.log, World.incSkipped, h, statsOf, List.countP_append, isAddedLine,
      isUpdatedLine, isDeletedLine, isSkippedLine]

theorem confirmEvents_name (config : Config) (ok : Oracle) (current : GoMap) (hist : List Event)
    (resp d : String) (x : Event) (hx : x ∈ confirmEvents config ok current hist resp d) :
    x.name? = some d := by
  unfold confirmEvents at hx
  rcases List.mem_cons.1 hx with rfl | hx
  · rfl
  · split at hx
    · split at hx
      · simp at hx; subst hx; rfl
      · split at hx <;> simp at hx <;> rcases hx with rfl | rfl <;> rfl
    · simp at hx; subst hx; rfl

/-! ## Loops whose steps append events about one name -/

theorem foldl_inv {α : Type} (step : World → α → World) (P : World → Prop) (l : List α)
    (h : ∀ w a, a ∈ l → P w → P (step w a)) (w : World) (hw : P w) : P (l.foldl step w) := by
  induction l generalizing w with
  | nil => exact hw
  | cons a l ih =>
    rw [List.foldl_cons]
    exact ih (fun w b hb => h w b (List.mem_cons_of_mem _ hb)) _ (h w a (List.mem_cons_self _ _) hw)

theorem filter_about_eq_self {n : String} {B : List Event}
    (h : ∀ x ∈ B, x.name? = some n) : B.filter (about n) = B := by
  rw [List.filter_eq_self]
  intro x hx
  simp [about, h x hx]

theorem filter_about_eq_nil {n n' : String} {B : List Event}
    (h : ∀ x ∈ B, x.name? = some n') (hn : n' ≠ n) : B.filter (about n) = [] := by
  rw [List.filter_eq_nil_iff]
  intro x hx
  simp [about, h x hx, hn]

theorem foldl_filter_of_not_mem {α : Type} (step : World → α → World)
    (ev : World → α → List Event) (key : α → String)
    (hstep : ∀ w a, (step w a).trace = w.trace ++ ev w a)
    (hkey : ∀ w a x, x ∈ ev w a → x.name? = some (key a))
    (n : String) (l : List α) (w : World) (hn : n ∉ l.map key) :
    (l.foldl step w).trace.filter (about n) = w.trace.filter (about n) := by
  induction l generalizing w with
  | nil => rfl
  | cons a l ih =>
    simp only [List.map_cons, List.mem_cons, not_or] at hn
    rw [List.foldl_cons, ih _ hn.2, hstep, List.filter_append,
      filter_about_eq_nil (hkey w a) (Ne.symm hn.1), List.append_nil]

theorem foldl_filter_of_mem {α : Type} (step : World → α → World)
    (ev : World → α → List Event) (key : α → String) (Inv : World → Prop)
    (hstep : ∀ w a, (step w a).trace = w.trace ++ ev w a)
    (hkey : ∀ w a x, x ∈ ev w a → x.name? = some (key a))
    (hinv : ∀ w a, Inv w → Inv (step w a))
    (l : List α) (w : World) (hl : (l.map key).Nodup) (hw : Inv w) (a : α) (ha : a ∈ l) :
    ∃ w', Inv w' ∧ (l.foldl step w).trace.filter (about (key a))
      = w.trace.filter (about (key a)) ++ ev w' a := by
  induction l generalizing w with
  | nil => simp at ha
  | cons b l ih =>
    simp only [List.map_cons, List.nodup_cons] at hl
    rw [List.foldl_cons]
    rcases List.mem_cons.1 ha with rfl | hmem
    · refine ⟨w, hw, ?_⟩
      rw [foldl_filter_of_not_mem step ev key hstep hkey _ _ _ hl.1, hstep, List.filter_append,
        filter_about_eq_self (hkey w a)]
    · obtain ⟨w', hw', h⟩ := ih (step w b) hl.2 (hinv w b hw) hmem
      refine ⟨w', hw', ?_⟩
      have hne : key b ≠ key a := fun hk => hl.1 (hk ▸ List.mem_map_of_mem key hmem)
      rw [h, hstep, List.filter_append, filter_about_eq_nil (hkey w b) hne, List.append_nil]

theorem foldl_countP {α : Type} (step : World → α → World)
    (ev : World → α → List Event) (key : α → String) (p : Event → Bool)
    (q : α → List Event → Bool)
    (hstep : ∀ w a, (step w a).trace = w.trace ++ ev w a)
    (hkey : ∀ w a x, x ∈ ev w a → x.name? = some (key a))
    (hq1 : ∀ w a, (ev w a).countP p = if q a (ev w a) then 1 else 0)
    (hq2 : ∀ a t, q a t = q a (t.filter (about (key a))))
    (l : List α) (w : World) (hl : (l.map key).Nodup)
    (hw : ∀ a ∈ l, w.trace.filter (about (key a)) = []) :
    (l.foldl step w).trace.countP p
      = w.trace.countP p + (l.filter (fun a => q a (l.foldl step w).trace)).length := by
  induction l generalizing w with
  | nil => simp
  | cons b l ih =>
    simp only [List.map_cons, List.nodup_cons] at hl
    have hw1 : ∀ a ∈ l, (step w b).trace.filter (about (key a)) = [] := by
      intro a ha
      have hne : key b ≠ key a := fun hk => hl.1 (hk ▸ List.mem_map_of_mem key ha)
      rw [hstep, List.filter_append, hw a (List.mem_cons_of_mem _ ha),
        filter_about_eq_nil (hkey w b) hne]
      rfl
    have hb : q b (List.foldl step w (b :: l)).trace = q b (ev w b) := by
      rw [hq2, List.foldl_cons, foldl_filter_of_not_mem step ev key hstep hkey _ _ _ hl.1, hstep,
        List.filter_append, hw b (List.mem_cons_self _ _), filter_about_eq_self (hkey w b)]
      rfl
    rw [List.filter_cons, hb]
    rw [List.foldl_cons] at hb ⊢
    rw [ih _ hl.2 hw1, hstep, List.countP_append, hq1]
    by_cases hqb : q b (ev w b) = true
    · simp [hqb]; omega
    · simp [hqb]

/-! ## Sorting -/

theorem sortStrings_perm (l : List String) : (sortStrings l).Perm l :=
  List.perm_insertionSort _ l

theorem mem_sortStrings {l : List String} {d : String} : d ∈ sortStrings l ↔ d ∈ l :=
  (sortStrings_perm l).mem_iff

theorem length_sortStrings (l : List String) : (sortStrings l).length = l.length :=
  (sortStrings_perm l).length_eq

theorem sortStrings_le (l : List String) : (sortStrings l).Sorted (· ≤ ·) := by
  haveI : IsTotal String (fun a b => a.data ≤ b.data) := ⟨fun a b => le_total a.data b.data⟩
  haveI : IsTrans String (fun a b => a.data ≤ b.data) :=
    ⟨fun a b c h1 h2 => le_trans (a := a.data) h1 h2⟩
  have h := List.sorted_insertionSort (fun a b : String => a.data ≤ b.data) l
  refine List.Pairwise.imp ?_ h
  intro a b hab
  rw [String.le_iff_toList_le]
  exact hab

theorem sortStrings_lt {l : List String} (hl : l.Nodup) : (sortStrings l).Sorted (· < ·) :=
  (sortStrings_le l).lt_of_le ((sortStrings_perm l).nodup_iff.2 hl)

theorem sortStrings_congr {l l' : List String} (h : l.Perm l') :
    sortStrings l = sortStrings l' :=
  List.eq_of_perm_of_sorted (r := (· ≤ ·))
    (((sortStrings_perm l).trans h).trans (sortStrings_perm l').symm)
    (sortStrings_le l) (sortStrings_le l')

/-! ## The candidates -/

theorem mem_toDelete (desired current : GoMap) (d : String) :
    d ∈ toDelete desired current ↔ d ∈ current.keys ∧ desired.get? d = none := by
  simp [toDelete, List.mem_filter, Option.isNone_iff_eq_none]

theorem toDelete_nodup (desired current : GoMap) : (toDelete desired current).Nodup :=
  List.Nodup.filter _ current.nodup

theorem toDelete_congr {desired desired' current current' : GoMap}
    (hd : desired'.entries.Perm desired.entries) (hc : current'.entries.Perm current.entries) :
    (toDelete desired' current').Perm (toDelete desired current) := by
  unfold toDelete
  have h1 : (fun d => (desired'.get? d).isNone) = (fun d => (desired.get? d).isNone) := by
    funext d
    rw [GoMap.get?_congr hd]
  rw [h1]
  exact (hc.map Prod.fst).filter _

/-! ## Phase 1 -/

theorem phase1_input (config : Config) (ok : Oracle) (desired current : GoMap) (w : World) :
    (phase1 config ok desired current w).input = w.input :=
  foldl_inv (syncEntry config ok current) (fun w' => w'.input = w.input) desired.entries
    (fun w' a _ h => (syncEntry_input config ok current w' a).trans h) w rfl

theorem phase1_stats (config : Config) (ok : Oracle) (desired current : GoMap) (w : World)
    (h : w.stats = statsOf w.trace) :
    (phase1 config ok desired current w).stats
      = statsOf (phase1 config ok desired current w).trace :=
  foldl_inv (syncEntry config ok current) (fun w' => w'.stats = statsOf w'.trace)
    desired.entries (fun w' a _ h => syncEntry_stats config ok current w' a h) w h

theorem phase1_filter_of_mem (config : Config) (ok : Oracle) (desired current : GoMap)
    (w : World) (e : String × String) (he : e ∈ desired.entries) :
    ∃ hist, (phase1 config ok desired current w).trace.filter (about e.1)
      = w.trace.filter (about e.1) ++ syncEvents config ok current hist e := by
  obtain ⟨w', _, h⟩ := foldl_filter_of_mem (syncEntry config ok current)
    (fun w e => syncEvents config ok current w.trace e) Prod.fst (fun _ => True)
    (syncEntry_trace config ok current) (fun w a => syncEvents_name config ok current w.trace a)
    (fun _ _ _ => trivial) desired.entries w desired.nodup trivial e he
  exact ⟨w'.trace, h⟩

theorem phase1_filter_of_not_mem (config : Config) (ok : Oracle) (desired current : GoMap)
    (w : World) (n : String) (hn : desired.get? n = none) :
    (phase1 config ok desired current w).trace.filter (about n) = w.trace.filter (about n) :=
  foldl_filter_of_not_mem (syncEntry config ok current)
    (fun w e => syncEvents config ok current w.trace e) Prod.fst
    (syncEntry_trace config ok current) (fun w a => syncEvents_name config ok current w.trace a)
    n desired.entries w ((desired.get?_eq_none_iff n).1 hn)

/-! ## Phase 2 -/

theorem phase2_eq (config : Config) (ok : Oracle) (desired current : GoMap) (w : World) :
    phase2 config ok desired current w
      = if toDelete desired current = [] then w
        else (sortStrings (toDelete desired current)).foldl (confirmEntry config ok current)
          (w.log (.found (toDelete desired current).length)) := by
  unfold phase2
  cases h : toDelete desired current with
  | nil => simp
  | cons a l => simp

theorem phase2_stats (config : Config) (ok : Oracle) (desired current : GoMap) (w : World)
    (h : w.stats = statsOf w.trace) :
    (phase2 config ok desired current w).stats
      = statsOf (phase2 config ok desired current w).trace := by
  rw [phase2_eq]
  split
  · exact h
  · refine foldl_inv (confirmEntry config ok current) (fun w' => w'.stats = statsOf w'.trace) _
      (fun w' a _ h => confirmEntry_stats config ok current w' a h) _ ?_
    simp [World.log, h, statsOf, List.countP_append, isAddedLine, isUpdatedLine, isDeletedLine,
      isSkippedLine]

theorem phase2_filter_of_mem (config : Config) (ok : Oracle) (desired current : GoMap)
    (w : World) (d : String) (hd : d ∈ toDelete desired current) :
    ∃ hist resp,
      (phase2 config ok desired current w).trace.filter (about d)
        = w.trace.filter (about d) ++ confirmEvents config ok current hist resp d := by
  rw [phase2_eq, if_neg (List.ne_nil_of_mem hd)]
  obtain ⟨w', _, h⟩ := foldl_filter_of_mem (confirmEntry config ok current)
    (fun w d => confirmEvents config ok current w.trace (scanWord w.input).1 d) id
    (fun _ => True)
    (confirmEntry_trace config ok current)
    (fun w a => confirmEvents_name config ok current w.trace _ a)
    (fun _ _ _ => trivial)
    (sortStrings (toDelete desired current)) (w.log (.found (toDelete desired current).length))
    (by
      rw [List.map_id]
      exact (sortStrings_perm _).nodup_iff.2 (toDelete_nodup desired current))
    trivial d (mem_sortStrings.2 hd)
  refine ⟨w'.trace, (scanWord w'.input).1, ?_⟩
  simpa [World.log, List.filter_append, about, Event.name?, Line.domain?] using h

theorem phase2_filter_of_not_mem (config : Config) (ok : Oracle) (desired current : GoMap)
    (w : World) (n : String) (hn : n ∉ toDelete desired current) :
    (phase2 config ok desired current w).trace.filter (about n) = w.trace.filter (about n) := by
  rw [phase2_eq]
  split
  · rfl
  · rw [foldl_filter_of_not_mem (confirmEntry config ok current)
      (fun w d => confirmEvents config ok current w.trace (scanWord w.input).1 d) id
      (confirmEntry_trace config ok current)
      (fun w a => confirmEvents_name config ok current w.trace _ a) n _ _
      (by
        rw [List.map_id]
        exact fun h => hn (mem_sortStrings.1 h))]
    simp [World.log, List.filter_append, about, Event.name?, Line.domain?]

theorem prompts_append (a b : List Event) : prompts (a ++ b) = prompts a ++ prompts b := by
  simp [prompts, List.filterMap_append]

theorem storeCalls_append (a b : List Event) :
    storeCalls (a ++ b) = storeCalls a ++ storeCalls b := by
  simp [storeCalls, List.filterMap_append]

theorem prompts_confirmEvents (config : Config) (ok : Oracle) (current : GoMap)
    (hist : List Event) (resp d : String) :
    prompts (confirmEvents config ok current hist resp d) = [(d, current.get d, resp)] := by
  unfold confirmEvents prompts
  split
  · split
    · simp
    · split <;> simp
  · simp

theorem prompts_syncEvents (config : Config) (ok : Oracle) (current : GoMap)
    (hist : List Event) (e : String × String) :
    prompts (syncEvents config ok current hist e) = [] := by
  unfold syncEvents prompts
  split
  · split
    · simp
    · split <;> simp
  · split
    · split
      · simp
      · split
        · split <;> simp
        · simp
    · simp

theorem confirm_foldl_prompts (config : Config) (ok : Oracle) (current : GoMap)
    (l : List String) (w : World) :
    prompts (l.foldl (confirmEntry config ok current) w).trace
      = prompts w.trace ++ (answers l w.input).map (fun p => (p.1, current.get p.1, p.2)) := by
  induction l generalizing w with
  | nil => simp [answers]
  | cons d l ih =>
    rw [List.foldl_cons, ih, confirmEntry_trace, confirmEntry_input, prompts_append,
      prompts_confirmEvents]
    simp [answers]

theorem phase1_prompts (config : Config) (ok : Oracle) (desired current : GoMap) (w : World) :
    prompts (phase1 config ok desired current w).trace = prompts w.trace := by
  refine foldl_inv (syncEntry config ok current) (fun w' => prompts w'.trace = prompts w.trace)
    desired.entries (fun w' a _ h => ?_) w rfl
  show prompts (syncEntry config ok current w' a).trace = prompts w.trace
  rw [syncEntry_trace, prompts_append, prompts_syncEvents, List.append_nil]
  exact h

/-! ## The whole run -/

theorem reconcile_trace (config : Config) (ok : Oracle) (desired current : GoMap)
    (input : List Char) :
    (reconcile config ok desired current input).trace
      = (phase2 config ok desired current
          (phase1 config ok desired current (World.init input))).trace
        ++ [.log (.complete (reconcile config ok desired current input).stats)] := rfl

theorem reconcile_stats (config : Config) (ok : Oracle) (desired current : GoMap)
    (input : List Char) :
    (reconcile config ok desired current input).stats
      = statsOf (phase2 config ok desired current
          (phase1 config ok desired current (World.init input))).trace :=
  phase2_stats config ok desired current _ (phase1_stats config ok desired current _ rfl)

theorem reconcile_prompts (config : Config) (ok : Oracle) (desired current : GoMap)
    (input : List Char) :
    prompts (reconcile config ok desired current input).trace
      = (answers (sortStrings (toDelete desired current)) input).map
          (fun p => (p.1, current.get p.1, p.2)) := by
  have h2 := phase1_prompts config ok desired current (World.init input)
  have h3 := phase1_input config ok desired current (World.init input)
  have h0 : prompts (World.init input).trace = [] := rfl
  rw [reconcile_trace, prompts_append, phase2_eq]
  split
  · rename_i h
    rw [h2, h0, h]
    rfl
  · rw [confirm_foldl_prompts]
    simp only [World.log, prompts_append, h2, h0, h3]
    simp [prompts, World.init]

theorem reconcile_filter_desired (config : Config) (ok : Oracle) (desired current : GoMap)
    (input : List Char) (e : String × String) (he : e ∈ desired.entries) :
    ∃ hist, (reconcile config ok desired current input).trace.filter (about e.1)
      = syncEvents config ok current hist e := by
  obtain ⟨hist, h⟩ := phase1_filter_of_mem config ok desired current (World.init input) e he
  refine ⟨hist, ?_⟩
  have hnot : e.1 ∉ toDelete desired current := by
    rw [mem_toDelete, desired.get?_of_mem he]
    simp
  rw [reconcile_trace, List.filter_append, phase2_filter_of_not_mem _ _ _ _ _ _ hnot, h]
  simp [World.init, about, Event.name?, Line.domain?]

theorem reconcile_filter_candidate (config : Config) (ok : Oracle) (desired current : GoMap)
    (input : List Char) (d : String) (hd : d ∈ toDelete desired current) :
    ∃ hist resp,
      (reconcile config ok desired current input).trace.filter (about d)
        = confirmEvents config ok current hist resp d := by
  obtain ⟨hist, resp, h⟩ := phase2_filter_of_mem config ok desired current
    (phase1 config ok desired current (World.init input)) d hd
  refine ⟨hist, resp, ?_⟩
  rw [reconcile_trace, List.filter_append, h,
    phase1_filter_of_not_mem _ _ _ _ _ _ ((mem_toDelete _ _ _).1 hd).2]
  simp [World.init, about, Event.name?, Line.domain?]

theorem reconcile_filter_other (config : Config) (ok : Oracle) (desired current : GoMap)
    (input : List Char) (n : String) (h1 : desired.get? n = none)
    (h2 : n ∉ toDelete desired current) :
    (reconcile config ok desired current input).trace.filter (about n) = [] := by
  rw [reconcile_trace, List.filter_append, phase2_filter_of_not_mem _ _ _ _ _ _ h2,
    phase1_filter_of_not_mem _ _ _ _ _ _ h1]
  simp [World.init, about, Event.name?, Line.domain?]

theorem mem_filter_about {t : List Event} {x : Event} {n : String} (hx : x ∈ t)
    (hn : x.name? = some n) : x ∈ t.filter (about n) :=
  List.mem_filter.2 ⟨hx, by simp [about, hn]⟩

theorem callsOn_eq (n : String) (t : List Event) :
    callsOn n t = storeCalls (t.filter (about n)) := by
  induction t with
  | nil => rfl
  | cons x t ih =>
    unfold callsOn storeCalls at ih ⊢
    cases x with
    | call op b =>
      by_cases h : op.domain = n
      · simp [List.filter_cons, about, Event.name?, h]
        simpa using ih
      · simp [List.filter_cons, about, Event.name?, h]
        simpa using ih
    | prompt d ip r =>
      by_cases h : d = n
      · simp [List.filter_cons, about, Event.name?, h]
        simpa using ih
      · simp [List.filter_cons, about, Event.name?, h]
        simpa using ih
    | log l =>
      by_cases h : l.domain? = some n
      · simp [List.filter_cons, about, Event.name?, h]
        simpa using ih
      · simp [List.filter_cons, about, Event.name?, h]
        simpa using ih

/-! ## What the events of a step are -/

theorem isYes_empty : isYes "" = false := by decide

theorem mem_confirmEvents_delete {config : Config} {ok : Oracle} {current : GoMap}
    {hist : List Event} {resp d d' ip : String}
    (h : (∃ b, Event.call (.delete d' ip) b ∈ confirmEvents config ok current hist resp d)
      ∨ Event.log (.dryDelete d' ip) ∈ confirmEvents config ok current hist resp d) :
    isYes resp = true ∧ ip = current.get d := by
  unfold confirmEvents at h
  by_cases hy : isYes resp = true
  · refine ⟨hy, ?_⟩
    by_cases hd : config.DryRun = true
    · simp [hy, hd] at h
      exact h.2
    · cases hok : ok (hist ++ [.prompt d (current.get d) resp]) (.delete d (current.get d)) <;>
        simp [hy, hd, hok] at h <;> exact h.2
  · simp [hy] at h

theorem mem_confirmEvents_prompt {config : Config} {ok : Oracle} {current : GoMap}
    {hist : List Event} {resp d d' ip' resp' : String}
    (h : Event.prompt d' ip' resp' ∈ confirmEvents config ok current hist resp d) :
    d' = d ∧ ip' = current.get d ∧ resp' = resp := by
  have h1 : (d', ip', resp') ∈ prompts (confirmEvents config ok current hist resp d) := by
    unfold prompts
    rw [List.mem_filterMap]
    exact ⟨_, h, rfl⟩
  rw [prompts_confirmEvents] at h1
  simpa using h1

theorem prompt_mem_confirmEvents (config : Config) (ok : Oracle) (current : GoMap)
    (hist : List Event) (resp d : String) :
    Event.prompt d (current.get d) resp ∈ confirmEvents config ok current hist resp d :=
  List.mem_cons_self _ _

theorem mem_storeCalls {t : List Event} {op : StoreOp} {b : Bool} :
    (op, b) ∈ storeCalls t ↔ Event.call op b ∈ t := by
  unfold storeCalls
  rw [List.mem_filterMap]
  constructor
  · rintro ⟨x, hx, h⟩
    cases x <;> simp at h
    obtain ⟨rfl, rfl⟩ := h
    exact hx
  · intro h
    exact ⟨_, h, rfl⟩

theorem mem_prompts {t : List Event} {d ip resp : String} :
    (d, ip, resp) ∈ prompts t ↔ Event.prompt d ip resp ∈ t := by
  unfold prompts
  rw [List.mem_filterMap]
  constructor
  · rintro ⟨x, hx, h⟩
    cases x <;> simp at h
    obtain ⟨rfl, rfl, rfl⟩ := h
    exact hx
  · intro h
    exact ⟨_, h, rfl⟩

theorem answers_length (l : List String) (input : List Char) :
    (answers l input).length = l.length := by
  induction l generalizing input with
  | nil => rfl
  | cons d l ih => simp [answers, ih]

theorem answers_map_fst (l : List String) (input : List Char) :
    (answers l input).map Prod.fst = l := by
  induction l generalizing input with
  | nil => rfl
  | cons d l ih => simp [answers, ih]

/-! ## Counting lines over the loops -/

theorem phase1_countP (config : Config) (ok : Oracle) (current : GoMap) (p : Event → Bool)
    (g : String × String → Bool)
    (h : ∀ hist e, (syncEvents config ok current hist e).countP p = if g e then 1 else 0)
    (l : List (String × String)) (w : World) :
    (l.foldl (syncEntry config ok current) w).trace.countP p = w.trace.countP p + l.countP g := by
  induction l generalizing w with
  | nil => simp
  | cons e l ih =>
    rw [List.foldl_cons, ih, syncEntry_trace, List.countP_append, h, List.countP_cons]
    omega

theorem confirm_countP_le (config : Config) (ok : Oracle) (current : GoMap) (p : Event → Bool)
    (g : String → Bool)
    (h : ∀ hist resp d,
      (confirmEvents config ok current hist resp d).countP p ≤ if g resp then 1 else 0)
    (l : List String) (w : World) :
    (l.foldl (confirmEntry config ok current) w).trace.countP p
      ≤ w.trace.countP p + (answers l w.input).countP (fun a => g a.2) := by
  induction l generalizing w with
  | nil => simp [answers]
  | cons d l ih =>
    rw [List.foldl_cons]
    refine (ih _).trans ?_
    rw [confirmEntry_trace, confirmEntry_input, List.countP_append]
    have := h w.trace (scanWord w.input).1 d
    simp only [answers, List.countP_cons]
    omega

theorem confirm_countP (config : Config) (ok : Oracle) (current : GoMap) (p : Event → Bool)
    (g : String → Bool)
    (h : ∀ hist resp d,
      (confirmEvents config ok current hist resp d).countP p = if g resp then 1 else 0)
    (l : List String) (w : World) :
    (l.foldl (confirmEntry config ok current) w).trace.countP p
      = w.trace.countP p + (answers l w.input).countP (fun a => g a.2) := by
  induction l generalizing w with
  | nil => simp [answers]
  | cons d l ih =>
    rw [List.foldl_cons, ih, confirmEntry_trace, confirmEntry_input, List.countP_append, h]
    simp only [answers, List.countP_cons]
    omega

theorem phase2_countP_le (config : Config) (ok : Oracle) (desired current : GoMap)
    (p : Event → Bool) (g : String → Bool)
    (h : ∀ hist resp d,
      (confirmEvents config ok current hist resp d).countP p ≤ if g resp then 1 else 0)
    (hfound : ∀ n, p (.log (.found n)) = false) (w : World) :
    (phase2 config ok desired current w).trace.countP p
      ≤ w.trace.countP p
        + (answers (sortStrings (toDelete desired current)) w.input).countP (fun a => g a.2) := by
  rw [phase2_eq]
  split
  · omega
  · refine (confirm_countP_le config ok current p g h _ _).trans ?_
    simp [World.log, List.countP_append, hfound]

theorem phase2_countP (config : Config) (ok : Oracle) (desired current : GoMap)
    (p : Event → Bool) (g : String → Bool)
    (h : ∀ hist resp d,
      (confirmEvents config ok current hist resp d).countP p = if g resp then 1 else 0)
    (hfound : ∀ n, p (.log (.found n)) = false) (w : World) :
    (phase2 config ok desired current w).trace.countP p
      = w.trace.countP p
        + (answers (sortStrings (toDelete desired current)) w.input).countP (fun a => g a.2) := by
  rw [phase2_eq]
  split
  · rename_i h0
    simp [h0, sortStrings, answers]
  · rw [confirm_countP config ok current p g h]
    simp [World.log, List.countP_append, hfound]

/-! ## Lines of each kind in the events of a step -/

theorem countP_syncEvents_deleted (config : Config) (ok : Oracle) (current : GoMap)
    (hist : List Event) (e : String × String) :
    (syncEvents config ok current hist e).countP isDeletedLine
      = if (fun _ : String × String => false) e then 1 else 0 := by
  unfold syncEvents
  split
  · split
    · simp [isDeletedLine]
    · split <;> simp [isDeletedLine]
  · split
    · split
      · simp [isDeletedLine]
      · split
        · split <;> simp [isDeletedLine]
        · simp [isDeletedLine]
    · simp

theorem countP_syncEvents_skipped (config : Config) (ok : Oracle) (current : GoMap)
    (hist : List Event) (e : String × String) :
    (syncEvents config ok current hist e).countP isSkippedLine
      = if (fun _ : String × String => false) e then 1 else 0 := by
  unfold syncEvents
  split
  · split
    · simp [isSkippedLine]
    · split <;> simp [isSkippedLine]
  · split
    · split
      · simp [isSkippedLine]
      · split
        · split <;> simp [isSkippedLine]
        · simp [isSkippedLine]
    · simp

theorem countP_confirmEvents_added (config : Config) (ok : Oracle) (current : GoMap)
    (hist : List Event) (resp d : String) :
    (confirmEvents config ok current hist resp d).countP isAddedLine
      = if (fun _ : String => false) resp then 1 else 0 := by
  unfold confirmEvents
  split
  · split
    · simp [isAddedLine]
    · split <;> simp [isAddedLine]
  · simp [isAddedLine]

theorem countP_confirmEvents_updated (config : Config) (ok : Oracle) (current : GoMap)
    (hist : List Event) (resp d : String) :
    (confirmEvents config ok current hist resp d).countP isUpdatedLine
      = if (fun _ : String => false) resp then 1 else 0 := by
  unfold confirmEvents
  split
  · split
    · simp [isUpdatedLine]
    · split <;> simp [isUpdatedLine]
  · simp [isUpdatedLine]

theorem countP_confirmEvents_skipped (config : Config) (ok : Oracle) (current : GoMap)
    (hist : List Event) (resp d : String) :
    (confirmEvents config ok current hist resp d).countP isSkippedLine
      = if (fun r => !isYes r) resp then 1 else 0 := by
  unfold confirmEvents
  split
  · rename_i hy
    split
    · simp [isSkippedLine, hy]
    · split <;> simp [isSkippedLine, hy]
  · rename_i hy
    simp [isSkippedLine, hy]

theorem countP_confirmEvents_deleted_le (config : Config) (ok : Oracle) (current : GoMap)
    (hist : List Event) (resp d : String) :
    (confirmEvents config ok current hist resp d).countP isDeletedLine
      ≤ if isYes resp then 1 else 0 := by
  unfold confirmEvents
  split
  · split
    · simp [isDeletedLine]
    · split <;> simp [isDeletedLine]
  · simp [isDeletedLine]

theorem countP_confirmEvents_deleted (config : Config) (ok : Oracle) (current : GoMap)
    (hmode : config.DryRun = true ∨ ∀ hist op, ok hist op = true)
    (hist : List Event) (resp d : String) :
    (confirmEvents config ok current hist resp d).countP isDeletedLine
      = if isYes resp then 1 else 0 := by
  unfold confirmEvents
  split
  · split
    · simp [isDeletedLine]
    · rename_i hd
      rcases hmode with h | h
      · exact absurd h hd
      · simp [h, isDeletedLine]
  · simp [isDeletedLine]

/-! ## Counters of the whole run -/

theorem reconcile_deleted_le (config : Config) (ok : Oracle) (desired current : GoMap)
    (input : List Char) :
    (reconcile config ok desired current input).stats.Deleted
      ≤ (answers (sortStrings (toDelete desired current)) input).countP (fun a => isYes a.2) := by
  rw [reconcile_stats]
  show List.countP isDeletedLine _ ≤ _
  refine (phase2_countP_le config ok desired current isDeletedLine isYes
    (countP_confirmEvents_deleted_le config ok current) (fun _ => rfl) _).trans ?_
  rw [phase1_input]
  have := phase1_countP config ok current isDeletedLine (fun _ => false)
    (countP_syncEvents_deleted config ok current) desired.entries (World.init input)
  unfold phase1
  rw [this]
  simp [World.init]

theorem reconcile_skipped (config : Config) (ok : Oracle) (desired current : GoMap)
    (input : List Char) :
    (reconcile config ok desired current input).stats.Skipped
      = (answers (sortStrings (toDelete desired current)) input).countP
          (fun a => !isYes a.2) := by
  rw [reconcile_stats]
  show List.countP isSkippedLine _ = _
  rw [phase2_countP config ok desired current isSkippedLine (fun r => !isYes r)
    (countP_confirmEvents_skipped config ok current) (fun _ => rfl), phase1_input]
  have := phase1_countP config ok current isSkippedLine (fun _ => false)
    (countP_syncEvents_skipped config ok current) desired.entries (World.init input)
  unfold phase1
  rw [this]
  simp [World.init]

/-! ## Entries whose calls succeeded -/

theorem call_mem_filter_about {t : List Event} {op : StoreOp} {b : Bool} :
    Event.call op b ∈ t.filter (about op.domain) ↔ Event.call op b ∈ t :=
  ⟨List.mem_of_mem_filter, fun h => mem_filter_about h rfl⟩

theorem addSucceeded_filter (current : GoMap) (e : String × String) (t : List Event) :
    addSucceeded current e t = addSucceeded current e (t.filter (about e.1)) := by
  unfold addSucceeded
  have h := @call_mem_filter_about t (.add e.1 e.2) true
  simp only [StoreOp.domain] at h
  simp only [h]

theorem updateSucceeded_filter (current : GoMap) (e : String × String) (t : List Event) :
    updateSucceeded current e t = updateSucceeded current e (t.filter (about e.1)) := by
  unfold updateSucceeded
  cases current.get? e.1 with
  | none => rfl
  | some oldIP =>
    have h1 := @call_mem_filter_about t (.add e.1 e.2) true
    have h2 := @call_mem_filter_about t (.delete e.1 oldIP) true
    simp only [StoreOp.domain] at h1 h2
    simp only [h1, h2]

theorem countP_syncEvents_added_live (config : Config) (ok : Oracle) (current : GoMap)
    (hlive : config.DryRun = false) (hist : List Event) (e : String × String) :
    (syncEvents config ok current hist e).countP isAddedLine
      = if addSucceeded current e (syncEvents config ok current hist e) then 1 else 0 := by
  unfold addSucceeded syncEvents
  cases hget : current.get? e.1 with
  | none =>
    cases hok : ok hist (.add e.1 e.2) <;> simp [hlive, hok, isAddedLine]
  | some oldIP =>
    by_cases hne : oldIP = e.2
    · simp [hne]
    · cases hok : ok hist (.delete e.1 oldIP)
      · simp [hlive, hne, hok, isAddedLine]
      · cases hok2 : ok (hist ++ [.call (.delete e.1 oldIP) true]) (.add e.1 e.2) <;>
          simp [hlive, hne, hok, hok2, isAddedLine]

theorem countP_syncEvents_updated_live (config : Config) (ok : Oracle) (current : GoMap)
    (hlive : config.DryRun = false) (hist : List Event) (e : String × String) :
    (syncEvents config ok current hist e).countP isUpdatedLine
      = if updateSucceeded current e (syncEvents config ok current hist e) then 1 else 0 := by
  unfold updateSucceeded syncEvents
  cases hget : current.get? e.1 with
  | none =>
    cases hok : ok hist (.add e.1 e.2) <;> simp [hlive, hok, isUpdatedLine]
  | some oldIP =>
    by_cases hne : oldIP = e.2
    · simp [hne]
    · cases hok : ok hist (.delete e.1 oldIP)
      · simp [hlive, hne, hok, isUpdatedLine]
      · cases hok2 : ok (hist ++ [.call (.delete e.1 oldIP) true]) (.add e.1 e.2) <;>
          simp [hlive, hne, hok, hok2, isUpdatedLine]

theorem phase1_added_live (config : Config) (ok : Oracle) (desired current : GoMap)
    (input : List Char) (hlive : config.DryRun = false) :
    (phase1 config ok desired current (World.init input)).stats.Added
      = (desired.entries.filter (fun e => addSucceeded current e
          (phase1 config ok desired current (World.init input)).trace)).length := by
  rw [phase1_stats config ok desired current _ rfl]
  show List.countP isAddedLine _ = _
  have := foldl_countP (syncEntry config ok current)
    (fun w e => syncEvents config ok current w.trace e) Prod.fst isAddedLine
    (addSucceeded current) (syncEntry_trace config ok current)
    (fun w a => syncEvents_name config ok current w.trace a)
    (fun w a => countP_syncEvents_added_live config ok current hlive w.trace a)
    (addSucceeded_filter current) desired.entries (World.init input) desired.nodup
    (fun _ _ => rfl)
  unfold phase1
  rw [this]
  simp [World.init]

theorem phase1_updated_live (config : Config) (ok : Oracle) (desired current : GoMap)
    (input : List Char) (hlive : config.DryRun = false) :
    (phase1 config ok desired current (World.init input)).stats.Updated
      = (desired.entries.filter (fun e => updateSucceeded current e
          (phase1 config ok desired current (World.init input)).trace)).length := by
  rw [phase1_stats config ok desired current _ rfl]
  show List.countP isUpdatedLine _ = _
  have := foldl_countP (syncEntry config ok current)
    (fun w e => syncEvents config ok current w.trace e) Prod.fst isUpdatedLine
    (updateSucceeded current) (syncEntry_trace config ok current)
    (fun w a => syncEvents_name config ok current w.trace a)
    (fun w a => countP_syncEvents_updated_live config ok current hlive w.trace a)
    (updateSucceeded_filter current) desired.entries (World.init input) desired.nodup
    (fun _ _ => rfl)
  unfold phase1
  rw [this]
  simp [World.init]

theorem reconcile_filter_eq_phase1 (config : Config) (ok : Oracle) (desired current : GoMap)
    (input : List Char) (n : String) (hn : n ∉ toDelete desired current) :
    (reconcile config ok desired current input).trace.filter (about n)
      = (phase1 config ok desired current (World.init input)).trace.filter (about n) := by
  rw [reconcile_trace, List.filter_append, phase2_filter_of_not_mem _ _ _ _ _ _ hn]
  simp [about, Event.name?, Line.domain?]

theorem not_mem_toDelete_of_mem {desired : GoMap} (current : GoMap) {e : String × String}
    (he : e ∈ desired.entries) : e.1 ∉ toDelete desired current := by
  rw [mem_toDelete, desired.get?_of_mem he]
  simp

theorem reconcile_added_updated (config : Config) (ok : Oracle) (desired current : GoMap)
    (input : List Char) :
    (reconcile config ok desired current input).stats.Added
        = (phase1 config ok desired current (World.init input)).stats.Added ∧
      (reconcile config ok desired current input).stats.Updated
        = (phase1 config ok desired current (World.init input)).stats.Updated := by
  rw [reconcile_stats, phase1_stats config ok desired current _ rfl]
  constructor
  · show List.countP isAddedLine _ = List.countP isAddedLine _
    rw [phase2_countP config ok desired current isAddedLine (fun _ => false)
      (countP_confirmEvents_added config ok current) (fun _ => rfl)]
    simp
  · show List.countP isUpdatedLine _ = List.countP isUpdatedLine _
    rw [phase2_countP config ok desired current isUpdatedLine (fun _ => false)
      (countP_confirmEvents_updated config ok current) (fun _ => rfl)]
    simp

/-! ## Dry runs -/

theorem storeCalls_syncEvents_dry (config : Config) (ok : Oracle) (current : GoMap)
    (hdry : config.DryRun = true) (hist : List Event) (e : String × String) :
    storeCalls (syncEvents config ok current hist e) = [] := by
  unfold syncEvents
  split
  · simp [hdry, storeCalls]
  · split
    · simp [hdry, storeCalls]
    · rfl

theorem storeCalls_confirmEvents_dry (config : Config) (ok : Oracle) (current : GoMap)
    (hdry : config.DryRun = true) (hist : List Event) (resp d : String) :
    storeCalls (confirmEvents config ok current hist resp d) = [] := by
  unfold confirmEvents
  split <;> simp [hdry, storeCalls]

theorem reconcile_storeCalls_dry (config : Config) (ok : Oracle) (desired current : GoMap)
    (input : List Char) (hdry : config.DryRun = true) :
    storeCalls (reconcile config ok desired current input).trace = [] := by
  have h1 : storeCalls (phase1 config ok desired current (World.init input)).trace = [] := by
    refine foldl_inv (syncEntry config ok current) (fun w => storeCalls w.trace = [])
      desired.entries (fun w a _ h => ?_) _ rfl
    show storeCalls (syncEntry config ok current w a).trace = []
    rw [syncEntry_trace, storeCalls_append, h, storeCalls_syncEvents_dry config ok current hdry]
    rfl
  have h2 : storeCalls (phase2 config ok desired current
      (phase1 config ok desired current (World.init input))).trace = [] := by
    rw [phase2_eq]
    split
    · exact h1
    · refine foldl_inv (confirmEntry config ok current) (fun w => storeCalls w.trace = []) _
        (fun w a _ h => ?_) _ ?_
      · show storeCalls (confirmEntry config ok current w a).trace = []
        rw [confirmEntry_trace, storeCalls_append, h,
          storeCalls_confirmEvents_dry config ok current hdry]
        rfl
      · show storeCalls (_ ++ _) = []
        rw [storeCalls_append, h1]
        rfl
  rw [reconcile_trace, storeCalls_append, h2]
  rfl

/-! ## The guards of `main` -/

theorem main_of_len_eq_zero (config : Config) (vms : List (VMResource × String))
    (rewrites : List Rewrite) (rangeDesired rangeCurrent : RangeOrder) (ok : Oracle)
    (input : List Char) (h : (buildDesired config vms).len = 0) :
    (main config vms rewrites rangeDesired rangeCurrent ok input).trace = [] := by
  unfold main
  split
  · rfl
  · simp [h, Outcome.trace]

theorem main_of_len_ne_zero (config : Config) (vms : List (VMResource × String))
    (rewrites : List Rewrite) (rangeDesired rangeCurrent : RangeOrder) (ok : Oracle)
    (input : List Char) (h : (buildDesired config vms).len ≠ 0) :
    main config vms rewrites rangeDesired rangeCurrent ok input
      = .complete (reconcile config ok (rangeDesired.apply (buildDesired config vms))
          (rangeCurrent.apply (buildCurrent rewrites)) input) := by
  unfold main
  split
  · rename_i h0
    have : vms = [] := List.length_eq_zero.1 h0
    subst this
    exact absurd rfl h
  · simp [h]

theorem reconcile_promptNames (config : Config) (ok : Oracle) (desired current : GoMap)
    (input : List Char) :
    (prompts (reconcile config ok desired current input).trace).map Prod.fst
      = sortStrings (toDelete desired current) := by
  rw [reconcile_prompts, List.map_map]
  exact answers_map_fst _ _

/-! ## Counters when nothing fails -/

theorem countP_syncEvents_added (config : Config) (ok : Oracle) (current : GoMap)
    (hmode : config.DryRun = true ∨ ∀ hist op, ok hist op = true)
    (hist : List Event) (e : String × String) :
    (syncEvents config ok current hist e).countP isAddedLine
      = if (fun e : String × String => (current.get? e.1).isNone) e then 1 else 0 := by
  unfold syncEvents
  cases hget : current.get? e.1 with
  | none =>
    rcases hmode with h | h
    · simp [h, hget, isAddedLine]
    · by_cases hd : config.DryRun = true
      · simp [hd, hget, isAddedLine]
      · simp [hd, h, hget, isAddedLine]
  | some oldIP =>
    by_cases hne : oldIP = e.2
    · simp [hne, hget]
    · rcases hmode with h | h
      · simp [h, hne, hget, isAddedLine]
      · by_cases hd : config.DryRun = true
        · simp [hd, hne, hget, isAddedLine]
        · simp [hd, h, hne, hget, isAddedLine]

theorem countP_syncEvents_updated (config : Config) (ok : Oracle) (current : GoMap)
    (hmode : config.DryRun = true ∨ ∀ hist op, ok hist op = true)
    (hist : List Event) (e : String × String) :
    (syncEvents config ok current hist e).countP isUpdatedLine
      = if (fun e : String × String =>
            match current.get? e.1 with
            | some oldIP => decide (oldIP ≠ e.2)
            | none => false) e then 1 else 0 := by
  unfold syncEvents
  cases hget : current.get? e.1 with
  | none =>
    rcases hmode with h | h
    · simp [h, hget, isUpdatedLine]
    · by_cases hd : config.DryRun = true
      · simp [hd, hget, isUpdatedLine]
      · simp [hd, h, hget, isUpdatedLine]
  | some oldIP =>
    by_cases hne : oldIP = e.2
    · simp [hne, hget]
    · rcases hmode with h | h
      · simp [h, hne, hget, isUpdatedLine]
      · by_cases hd : config.DryRun = true
        · simp [hd, hne, hget, isUpdatedLine]
        · simp [hd, h, hne, hget, isUpdatedLine]

theorem reconcile_stats_of_no_failure (config : Config) (ok : Oracle) (desired current : GoMap)
    (input : List Char) (hmode : config.DryRun = true ∨ ∀ hist op, ok hist op = true) :
    (reconcile config ok desired current input).stats = intendedStats desired current input := by
  have hA := phase1_countP config ok current isAddedLine _
    (countP_syncEvents_added config ok current hmode) desired.entries (World.init input)
  have hU := phase1_countP config ok current isUpdatedLine _
    (countP_syncEvents_updated config ok current hmode) desired.entries (World.init input)
  have hD := phase1_countP config ok current isDeletedLine _
    (countP_syncEvents_deleted config ok current) desired.entries (World.init input)
  have hS := phase1_countP config ok current isSkippedLine _
    (countP_syncEvents_skipped config ok current) desired.entries (World.init input)
  rw [reconcile_stats]
  unfold statsOf intendedStats
  rw [phase2_countP config ok desired current isAddedLine _
      (countP_confirmEvents_added config ok current) (fun _ => rfl),
    phase2_countP config ok desired current isUpdatedLine _
      (countP_confirmEvents_updated config ok current) (fun _ => rfl),
    phase2_countP config ok desired current isDeletedLine _
      (countP_confirmEvents_deleted config ok current hmode) (fun _ => rfl),
    phase2_countP config ok desired current isSkippedLine _
      (countP_confirmEvents_skipped config ok current) (fun _ => rfl), phase1_input]
  unfold phase1
  rw [hA, hU, hD, hS]
  simp [World.init]

/-! ## The desired map -/

theorem buildDesired_foldl_get? (config : Config) (vms : List (VMResource × String))
    (m : GoMap) (k : String) :
    (vms.foldl (fun desired p =>
        if p.2 = "" then desired else desired.set (fqdn config p.1) p.2) m).get? k
      = (((vms.filter (fun p => decide (p.2 ≠ ""))).reverse.find?
          (fun p => decide (fqdn config p.1 = k))).map Prod.snd).or (m.get? k) := by
  induction vms generalizing m with
  | nil => simp
  | cons p vms ih =>
    rw [List.foldl_cons, ih]
    by_cases hp : p.2 = ""
    · simp [hp]
    · simp only [hp, if_false, ne_eq, not_false_eq_true, decide_True, List.filter_cons_of_pos,
        List.reverse_cons, List.find?_append, GoMap.get?_set]
      cases (List.find? (fun p => decide (fqdn config p.1 = k))
        (List.filter (fun p => decide (¬p.2 = "")) vms).reverse) with
      | some q => simp
      | none =>
        by_cases hk : fqdn config p.1 = k
        · simp [hk]
        · have hk' : ¬ k = fqdn config p.1 := fun h => hk h.symm
          simp [hk, hk']

theorem buildDesired_get? (config : Config) (vms : List (VMResource × String)) (k : String) :
    (buildDesired config vms).get? k
      = ((vms.filter (fun p => decide (p.2 ≠ ""))).reverse.find?
          (fun p => decide (fqdn config p.1 = k))).map Prod.snd := by
  unfold buildDesired
  rw [buildDesired_foldl_get?, GoMap.get?_empty, Option.or_none]

/-! ## A store whose answer depends on the call alone -/

theorem syncEvents_of_op_oracle (config : Config) (f : StoreOp → Bool) (current : GoMap)
    (hist : List Event) (e : String × String) :
    syncEvents config (fun _ op => f op) current hist e
      = syncEvents config (fun _ op => f op) current [] e := rfl

theorem phase1_trace_of_op_oracle (config : Config) (f : StoreOp → Bool) (current : GoMap)
    (l : List (String × String)) (w : World) :
    (l.foldl (syncEntry config (fun _ op => f op) current) w).trace
      = w.trace ++ l.flatMap (syncEvents config (fun _ op => f op) current []) := by
  induction l generalizing w with
  | nil => simp
  | cons e l ih =>
    rw [List.foldl_cons, ih, syncEntry_trace, syncEvents_of_op_oracle, List.flatMap_cons,
      List.append_assoc]

theorem phase1_filter_of_op_oracle (config : Config) (f : StoreOp → Bool)
    (desired current : GoMap) (input : List Char) (n : String) :
    (phase1 config (fun _ op => f op) desired current (World.init input)).trace.filter (about n)
      = match desired.get? n with
        | some v => syncEvents config (fun _ op => f op) current [] (n, v)
        | none => [] := by
  cases h : desired.get? n with
  | none =>
    rw [phase1_filter_of_not_mem _ _ _ _ _ _ h]
    rfl
  | some v =>
    obtain ⟨hist, hf⟩ := phase1_filter_of_mem config (fun _ op => f op) desired current
      (World.init input) (n, v) ((desired.get?_eq_some_iff n v).1 h)
    rw [hf, syncEvents_of_op_oracle]
    rfl

/-! ## The current map and the store -/

theorem buildCurrent_foldl_get? (rewrites : List Rewrite) (m : GoMap) (k : String) :
    (rewrites.foldl (fun current r => current.set r.Domain r.Answer) m).get? k
      = ((rewrites.reverse.find? (fun r => decide (r.Domain = k))).map Rewrite.Answer).or
          (m.get? k) := by
  induction rewrites generalizing m with
  | nil => simp
  | cons r rewrites ih =>
    rw [List.foldl_cons, ih]
    simp only [List.reverse_cons, List.find?_append, GoMap.get?_set]
    cases (List.find? (fun r => decide (r.Domain = k)) rewrites.reverse) with
    | some q => simp
    | none =>
      by_cases hk : r.Domain = k
      · simp [hk]
      · have hk' : ¬ k = r.Domain := fun h => hk h.symm
        simp [hk, hk']

theorem buildCurrent_get? (rewrites : List Rewrite) (k : String) :
    (buildCurrent rewrites).get? k
      = (rewrites.reverse.find? (fun r => decide (r.Domain = k))).map Rewrite.Answer := by
  unfold buildCurrent
  rw [buildCurrent_foldl_get?, GoMap.get?_empty, Option.or_none]

theorem buildCurrent_mem_of_get? {rewrites : List Rewrite} {k v : String}
    (h : (buildCurrent rewrites).get? k = some v) : (⟨k, v⟩ : Rewrite) ∈ rewrites := by
  rw [buildCurrent_get?, Option.map_eq_some'] at h
  obtain ⟨r, hr, rfl⟩ := h
  have h1 := List.mem_of_find?_eq_some hr
  have h2 := List.find?_some hr
  simp only [decide_eq_true_eq] at h2
  subst h2
  exact List.mem_reverse.1 h1

theorem buildCurrent_get?_eq_none {rewrites : List Rewrite} {k : String} :
    (buildCurrent rewrites).get? k = none ↔ ∀ r ∈ rewrites, r.Domain ≠ k := by
  rw [buildCurrent_get?]
  simp

theorem mem_applyCall_congr {r : Rewrite} {s s' : List Rewrite} (c : StoreOp × Bool)
    (h : r ∈ s ↔ r ∈ s') : r ∈ applyCall s c ↔ r ∈ applyCall s' c := by
  obtain ⟨op, b⟩ := c
  cases op <;> cases b <;> simp [applyCall, h]

theorem mem_foldl_applyCall_congr {r : Rewrite} (cs : List (StoreOp × Bool))
    {s s' : List Rewrite} (h : r ∈ s ↔ r ∈ s') :
    r ∈ cs.foldl applyCall s ↔ r ∈ cs.foldl applyCall s' := by
  induction cs generalizing s s' with
  | nil => exact h
  | cons c cs ih => exact ih (mem_applyCall_congr c h)

theorem mem_applyCall_of_ne {r : Rewrite} {s : List Rewrite} {c : StoreOp × Bool}
    (h : c.1.domain ≠ r.Domain) : r ∈ applyCall s c ↔ r ∈ s := by
  obtain ⟨op, b⟩ := c
  cases op with
  | add d a =>
    cases b
    · simp [applyCall]
    · simp only [applyCall, List.mem_append, List.mem_singleton]
      constructor
      · rintro (h1 | h1)
        · exact h1
        · exact absurd (by rw [h1]; rfl) h
      · exact Or.inl
  | delete d a =>
    cases b
    · simp [applyCall]
    · simp only [applyCall, List.mem_filter, decide_eq_true_eq]
      constructor
      · exact fun h1 => h1.1
      · intro h1
        exact ⟨h1, fun h2 => h (by rw [h2]; rfl)⟩

theorem mem_foldl_applyCall_filter (r : Rewrite) (cs : List (StoreOp × Bool))
    (s : List Rewrite) :
    r ∈ cs.foldl applyCall s
      ↔ r ∈ (cs.filter (fun c => decide (c.1.domain = r.Domain))).foldl applyCall s := by
  induction cs generalizing s with
  | nil => rfl
  | cons c cs ih =>
    by_cases hc : c.1.domain = r.Domain
    · rw [List.filter_cons_of_pos (by simpa using hc), List.foldl_cons, List.foldl_cons]
      exact ih _
    · rw [List.filter_cons_of_neg (by simpa using hc), List.foldl_cons]
      exact (mem_foldl_applyCall_congr cs (mem_applyCall_of_ne hc)).trans (ih s)

theorem mem_storeAfter (store : List Rewrite) (t : List Event) (k v : String) :
    (⟨k, v⟩ : Rewrite) ∈ storeAfter store t ↔ (⟨k, v⟩ : Rewrite) ∈ (callsOn k t).foldl applyCall store :=
  mem_foldl_applyCall_filter ⟨k, v⟩ (storeCalls t) store

theorem applyCall_filter_domain (s : List Rewrite) (c : StoreOp × Bool) (k : String) :
    (applyCall s c).filter (fun r => decide (r.Domain = k))
      = if c.1.domain = k then applyCall (s.filter (fun r => decide (r.Domain = k))) c
        else s.filter (fun r => decide (r.Domain = k)) := by
  obtain ⟨op, b⟩ := c
  cases op with
  | add d a =>
    cases b
    · simp [applyCall]
    · by_cases h : d = k
      · simp [applyCall, StoreOp.domain, h, List.filter_append]
      · simp [applyCall, StoreOp.domain, h, List.filter_append]
  | delete d a =>
    cases b
    · simp [applyCall]
    · by_cases h : d = k
      · simp only [applyCall, StoreOp.domain, h, if_true]
        exact List.filter_comm _ _ _
      · simp only [applyCall, StoreOp.domain, h, if_false]
        rw [List.filter_comm, List.filter_eq_self]
        intro r hr
        have hk : r.Domain = k := by simpa using (List.mem_filter.1 hr).2
        have : r ≠ ⟨d, a⟩ := fun hra => h (by rw [← hk, hra])
        simpa using this

theorem foldl_applyCall_filter_domain (cs : List (StoreOp × Bool)) (s : List Rewrite)
    (k : String) :
    (cs.foldl applyCall s).filter (fun r => decide (r.Domain = k))
      = (cs.filter (fun c => decide (c.1.domain = k))).foldl applyCall
          (s.filter (fun r => decide (r.Domain = k))) := by
  induction cs generalizing s with
  | nil => rfl
  | cons c cs ih =>
    rw [List.foldl_cons, ih, applyCall_filter_domain]
    by_cases hc : c.1.domain = k
    · rw [if_pos hc, List.filter_cons_of_pos (by simpa using hc), List.foldl_cons]
    · rw [if_neg hc, List.filter_cons_of_neg (by simpa using hc)]

theorem storeAfter_filter_domain (store : List Rewrite) (t : List Event) (k : String) :
    (storeAfter store t).filter (fun r => decide (r.Domain = k))
      = (callsOn k t).foldl applyCall (store.filter (fun r => decide (r.Domain = k))) :=
  foldl_applyCall_filter_domain (storeCalls t) store k

theorem buildCurrent_get?_filter_domain (l : List Rewrite) (k : String) :
    (buildCurrent (l.filter (fun r => decide (r.Domain = k)))).get? k
      = (buildCurrent l).get? k := by
  rw [buildCurrent_get?, buildCurrent_get?, ← List.filter_reverse, List.find?_filter]
  congr 2
  funext r
  simp

theorem buildCurrent_get?_append_self (l : List Rewrite) (k v : String) :
    (buildCurrent (l ++ [⟨k, v⟩])).get? k = some v := by
  rw [buildCurrent_get?]
  simp

theorem buildCurrent_get?_ne_none {rewrites : List Rewrite} {k : String} :
    (buildCurrent rewrites).get? k ≠ none ↔ ∃ v, (⟨k, v⟩ : Rewrite) ∈ rewrites := by
  rw [Ne, buildCurrent_get?_eq_none]
  constructor
  · intro h
    by_contra hn
    apply h
    intro r hr hk
    exact hn ⟨r.Answer, by rw [← hk]; exact hr⟩
  · rintro ⟨v, hv⟩ h
    exact h _ hv rfl

/-! ## A run against a store that already agrees with the desired map -/

theorem phase1_of_agree (config : Config) (ok : Oracle) (desired current : GoMap) (w : World)
    (h : ∀ e ∈ desired.entries, current.get? e.1 = some e.2) :
    phase1 config ok desired current w = w := by
  refine foldl_inv (syncEntry config ok current) (fun w' => w' = w)
    desired.entries (fun w' e he hw => ?_) _ rfl
  show syncEntry config ok current w' e = w
  unfold syncEntry
  rw [h e he]
  simpa using hw

theorem reconcile_of_idle (config : Config) (ok : Oracle) (desired current : GoMap)
    (input : List Char) (h1 : ∀ e ∈ desired.entries, current.get? e.1 = some e.2)
    (h2 : toDelete desired current = []) :
    reconcile config ok desired current input
      = ⟨⟨0, 0, 0, 0⟩, [.log (.complete ⟨0, 0, 0, 0⟩)], input⟩ := by
  unfold reconcile
  rw [phase1_of_agree config ok desired current _ h1, phase2_eq, if_pos h2]
  rfl

/-! ## The calls of a live run in which the store accepts every call -/

theorem callsOn_desired_of_accepting (config : Config) (ok : Oracle) (desired current : GoMap)
    (input : List Char) (hlive : config.DryRun = false) (hok : ∀ hist op, ok hist op = true)
    (k v : String) (hd : desired.get? k = some v) :
    callsOn k (reconcile config ok desired current input).trace
      = match current.get? k with
        | none => [(.add k v, true)]
        | some oldIP =>
          if oldIP ≠ v then [(.delete k oldIP, true), (.add k v, true)] else [] := by
  rw [callsOn_eq]
  obtain ⟨hist, hf⟩ := reconcile_filter_desired config ok desired current input (k, v)
    ((desired.get?_eq_some_iff k v).1 hd)
  rw [hf]
  unfold syncEvents
  cases hc : current.get? k with
  | none => simp [hlive, hok, storeCalls]
  | some oldIP =>
    by_cases hne : oldIP = v
    · simp [hne, storeCalls]
    · simp [hlive, hok, hne, storeCalls]

theorem callsOn_candidate_of_accepting (config : Config) (ok : Oracle)
    (desired current : GoMap) (input : List Char) (hlive : config.DryRun = false)
    (hok : ∀ hist op, ok hist op = true) (k : String) (hk : k ∈ toDelete desired current) :
    ∃ resp,
      (∀ ip' resp', Event.prompt k ip' resp' ∈ (reconcile config ok desired current input).trace
        ↔ (ip' = current.get k ∧ resp' = resp)) ∧
      callsOn k (reconcile config ok desired current input).trace
        = if isYes resp then [(.delete k (current.get k), true)] else [] := by
  obtain ⟨hist, resp, hf⟩ := reconcile_filter_candidate config ok desired current input k hk
  refine ⟨resp, fun ip' resp' => ⟨fun hp => ?_, fun hp => ?_⟩, ?_⟩
  · have hp' := mem_filter_about hp (n := k) rfl
    rw [hf] at hp'
    exact (mem_confirmEvents_prompt hp').2
  · obtain ⟨rfl, rfl⟩ := hp
    have := prompt_mem_confirmEvents config ok current hist resp' k
    rw [← hf] at this
    exact List.mem_of_mem_filter this
  · rw [callsOn_eq, hf]
    unfold confirmEvents
    by_cases hy : isYes resp = true
    · simp [hy, hlive, hok, storeCalls]
    · simp [hy, storeCalls]

theorem callsOn_other (config : Config) (ok : Oracle) (desired current : GoMap)
    (input : List Char) (k : String) (hd : desired.get? k = none)
    (hk : k ∉ toDelete desired current) :
    callsOn k (reconcile config ok desired current input).trace = [] ∧
      ∀ ip resp, Event.prompt k ip resp ∉ (reconcile config ok desired current input).trace := by
  have hf := reconcile_filter_other config ok desired current input k hd hk
  constructor
  · rw [callsOn_eq, hf]
    rfl
  · intro ip resp hp
    have := mem_filter_about hp (n := k) rfl
    rw [hf] at this
    simp at this

/-! ## The store after such a run -/

theorem get?_after_accepting_run (config : Config) (ok : Oracle) (desired : GoMap)
    (listing : List Rewrite) (rangeCurrent : RangeOrder) (input : List Char)
    (hlive : config.DryRun = false) (hok : ∀ hist op, ok hist op = true)
    (k v : String) (hd : desired.get? k = some v) :
    (buildCurrent (storeAfter listing (reconcile config ok desired
      (rangeCurrent.apply (buildCurrent listing)) input).trace)).get? k = some v := by
  rw [← buildCurrent_get?_filter_domain, storeAfter_filter_domain,
    callsOn_desired_of_accepting config ok desired _ input hlive hok k v hd]
  cases hc : (rangeCurrent.apply (buildCurrent listing)).get? k with
  | none =>
    simp only [List.foldl_cons, List.foldl_nil, applyCall]
    exact buildCurrent_get?_append_self _ k v
  | some oldIP =>
    by_cases hne : oldIP = v
    · subst hne
      simp only [ne_eq, not_true_eq_false, if_false, List.foldl_nil]
      rw [buildCurrent_get?_filter_domain, ← GoMap.get?_congr (rangeCurrent.perm _)]
      exact hc
    · simp only [ne_eq, hne, not_false_eq_true, if_true, List.foldl_cons, List.foldl_nil,
        applyCall]
      exact buildCurrent_get?_append_self _ k v

theorem mem_keys_after_accepting_run (config : Config) (ok : Oracle) (desired : GoMap)
    (listing : List Rewrite) (rangeCurrent : RangeOrder) (input : List Char)
    (hlive : config.DryRun = false) (hok : ∀ hist op, ok hist op = true)
    (d : String) (hd : desired.get? d = none) :
    (buildCurrent (storeAfter listing (reconcile config ok desired
        (rangeCurrent.apply (buildCurrent listing)) input).trace)).get? d ≠ none
      ↔ ((∃ ip resp, Event.prompt d ip resp ∈ (reconcile config ok desired
            (rangeCurrent.apply (buildCurrent listing)) input).trace ∧ isYes resp = false) ∨
          ∃ r ∈ listing, r.Domain = d ∧
            r.Answer ≠ (rangeCurrent.apply (buildCurrent listing)).get d) := by
  have hcur : ∀ k, (rangeCurrent.apply (buildCurrent listing)).get? k
      = (buildCurrent listing).get? k := GoMap.get?_congr (rangeCurrent.perm _)
  rw [buildCurrent_get?_ne_none]
  simp only [mem_storeAfter]
  by_cases hcand : d ∈ toDelete desired (rangeCurrent.apply (buildCurrent listing))
  · obtain ⟨resp, hp, hcalls⟩ := callsOn_candidate_of_accepting config ok desired
      (rangeCurrent.apply (buildCurrent listing)) input hlive hok d hcand
    have hkeys := ((mem_toDelete _ _ _).1 hcand).1
    have hmemc : (⟨d, (rangeCurrent.apply (buildCurrent listing)).get d⟩ : Rewrite)
        ∈ listing := by
      cases hc : (rangeCurrent.apply (buildCurrent listing)).get? d with
      | none => exact absurd hkeys ((GoMap.get?_eq_none_iff _ d).1 hc)
      | some c =>
        have : (rangeCurrent.apply (buildCurrent listing)).get d = c := by
          simp [GoMap.get, hc]
        rw [this]
        rw [hcur] at hc
        exact buildCurrent_mem_of_get? hc
    rw [hcalls]
    by_cases hy : isYes resp = true
    · simp only [hy, if_true, List.foldl_cons, List.foldl_nil, applyCall, List.mem_filter,
        decide_eq_true_eq]
      constructor
      · rintro ⟨v, hv, hne⟩
        right
        refine ⟨⟨d, v⟩, hv, rfl, fun h => hne ?_⟩
        show (⟨d, v⟩ : Rewrite) = ⟨d, _⟩
        rw [← h]
      · rintro (⟨ip, r, hpr, hno⟩ | ⟨r, hr, hdom, hne⟩)
        · rw [((hp ip r).1 hpr).2, hy] at hno
          exact Bool.noConfusion hno
        · refine ⟨r.Answer, ?_, fun h => hne ?_⟩
          · rw [← hdom]
            exact hr
          · exact (Rewrite.mk.injEq _ _ _ _ ▸ h : d = d ∧ r.Answer = _).2
    · simp only [hy, List.foldl_nil]
      constructor
      · intro _
        left
        exact ⟨_, resp, (hp _ resp).2 ⟨rfl, rfl⟩, by simpa using hy⟩
      · intro _
        exact ⟨_, hmemc⟩
  · obtain ⟨hcalls, hnop⟩ := callsOn_other config ok desired
      (rangeCurrent.apply (buildCurrent listing)) input d hd hcand
    rw [hcalls]
    have hnone : (buildCurrent listing).get? d = none := by
      rw [← hcur, GoMap.get?_eq_none_iff]
      intro hkeys
      exact hcand ((mem_toDelete _ _ _).2 ⟨hkeys, hd⟩)
    simp only [List.foldl_nil]
    constructor
    · rintro ⟨v, hv⟩
      exact absurd rfl (buildCurrent_get?_eq_none.1 hnone _ hv)
    · rintro (⟨ip, r, hpr, _⟩ | ⟨r, hr, hdom, _⟩)
      · exact absurd hpr (hnop ip r)
      · exact absurd hdom (buildCurrent_get?_eq_none.1 hnone _ hr)

/-! ## Runs in which every call that was issued succeeded -/

theorem foldl_trace_mono {α : Type} (step : World → α → World) (ev : World → α → List Event)
    (hstep : ∀ w a, (step w a).trace = w.trace ++ ev w a) (l : List α) (w : World)
    (x : Event) (hx : x ∈ w.trace) : x ∈ (l.foldl step w).trace := by
  induction l generalizing w with
  | nil => exact hx
  | cons a l ih =>
    rw [List.foldl_cons]
    apply ih
    rw [hstep]
    exact List.mem_append_left _ hx

theorem foldl_congr_of_trace {α : Type} (step step' : World → α → World)
    (ev : World → α → List Event) (hstep : ∀ w a, (step w a).trace = w.trace ++ ev w a)
    (P : Event → Prop) (hagree : ∀ w a, (∀ x ∈ (step w a).trace, P x) → step w a = step' w a)
    (l : List α) (w : World) (h : ∀ x ∈ (l.foldl step w).trace, P x) :
    l.foldl step w = l.foldl step' w := by
  induction l generalizing w with
  | nil => rfl
  | cons a l ih =>
    rw [List.foldl_cons] at h
    have h1 : step w a = step' w a :=
      hagree w a (fun x hx => h x (foldl_trace_mono step ev hstep l _ x hx))
    rw [List.foldl_cons, List.foldl_cons, ← h1]
    exact ih _ h

theorem syncEntry_of_calls_succeed (config : Config) (ok : Oracle) (current : GoMap)
    (w : World) (e : String × String)
    (h : ∀ x ∈ (syncEntry config ok current w e).trace, ∀ op b, x = Event.call op b → b = true) :
    syncEntry config ok current w e = syncEntry config okAlways current w e := by
  rw [syncEntry_trace] at h
  unfold syncEntry
  cases hget : current.get? e.1 with
  | none =>
    by_cases hd : config.DryRun = true
    · simp [hd]
    · cases hok : ok w.trace (.add e.1 e.2)
      · have hmem : Event.call (.add e.1 e.2) false
            ∈ syncEvents config ok current w.trace e := by
          simp [syncEvents, hget, hd, hok]
        exact absurd (h _ (List.mem_append_right _ hmem) _ _ rfl) (by simp)
      · simp [hd, hok, addRewrite, okAlways]
  | some oldIP =>
    by_cases hne : oldIP = e.2
    · simp [hne]
    · by_cases hd : config.DryRun = true
      · simp [hne, hd]
      · cases hok : ok w.trace (.delete e.1 oldIP)
        · have hmem : Event.call (.delete e.1 oldIP) false
              ∈ syncEvents config ok current w.trace e := by
            simp [syncEvents, hget, hd, hok, hne]
          exact absurd (h _ (List.mem_append_right _ hmem) _ _ rfl) (by simp)
        · cases hok2 : ok (w.trace ++ [.call (.delete e.1 oldIP) true]) (.add e.1 e.2)
          · have hmem : Event.call (.add e.1 e.2) false
                ∈ syncEvents config ok current w.trace e := by
              simp [syncEvents, hget, hd, hok, hok2, hne]
            exact absurd (h _ (List.mem_append_right _ hmem) _ _ rfl) (by simp)
          · simp [hne, hd, hok, hok2, deleteRewrite, addRewrite, okAlways]

theorem confirmEntry_of_calls_succeed (config : Config) (ok : Oracle) (current : GoMap)
    (w : World) (d : String)
    (h : ∀ x ∈ (confirmEntry config ok current w d).trace,
      ∀ op b, x = Event.call op b → b = true) :
    confirmEntry config ok current w d = confirmEntry config okAlways current w d := by
  rw [confirmEntry_trace] at h
  unfold confirmEntry scanln
  by_cases hy : isYes (scanWord w.input).1 = true
  · by_cases hd : config.DryRun = true
    · simp [hy, hd]
    · cases hok : ok (w.trace ++ [.prompt d (current.get d) (scanWord w.input).1])
          (.delete d (current.get d))
      · have hmem : Event.call (.delete d (current.get d)) false
            ∈ confirmEvents config ok current w.trace (scanWord w.input).1 d := by
          simp [confirmEvents, hy, hd, hok]
        exact absurd (h _ (List.mem_append_right _ hmem) _ _ rfl) (by simp)
      · simp [hy, hd, hok, deleteRewrite, okAlways]
  · simp [hy]

theorem reconcile_of_calls_succeed (config : Config) (ok : Oracle) (desired current : GoMap)
    (input : List Char)
    (h : ∀ op b, Event.call op b ∈ (reconcile config ok desired current input).trace → b = true) :
    reconcile config ok desired current input
      = reconcile config okAlways desired current input := by
  have h2 : ∀ x ∈ (phase2 config ok desired current
      (phase1 config ok desired current (World.init input))).trace,
      ∀ op b, x = Event.call op b → b = true := by
    intro x hx op b hxe
    subst hxe
    exact h op b (by rw [reconcile_trace]; exact List.mem_append_left _ hx)
  have h1 : ∀ x ∈ (phase1 config ok desired current (World.init input)).trace,
      ∀ op b, x = Event.call op b → b = true := by
    intro x hx
    apply h2
    rw [phase2_eq]
    split
    · exact hx
    · exact foldl_trace_mono _ _ (confirmEntry_trace config ok current) _ _ x
        (by simp [World.log, hx])
  have e1 : phase1 config ok desired current (World.init input)
      = phase1 config okAlways desired current (World.init input) :=
    foldl_congr_of_trace _ _ _ (syncEntry_trace config ok current) _
      (syncEntry_of_calls_succeed config ok current) _ _ h1
  have e2 : phase2 config ok desired current
        (phase1 config ok desired current (World.init input))
      = phase2 config okAlways desired current
        (phase1 config ok desired current (World.init input)) := by
    rw [phase2_eq] at h2
    rw [phase2_eq, phase2_eq]
    split
    · rfl
    · rename_i hne
      rw [if_neg hne] at h2
      exact foldl_congr_of_trace _ _ _ (confirmEntry_trace config ok current) _
        (confirmEntry_of_calls_succeed config ok current) _ _ h2
  unfold reconcile
  rw [e2, e1]

/-! ## Reading the responses of the operator -/

theorem isSpace_newline : isSpace newline = true := by decide

theorem scanWord_nil : scanWord [] = ("", []) := rfl

theorem scanWord_typed_cons (l : String) (lines : List String) (h : oneWord l = true) :
    scanWord (typed (l :: lines)) = (l, typed lines) := by
  have hl : ∀ c ∈ l.data, isSpace c = false := by
    intro c hc
    have := List.all_eq_true.1 h c hc
    simpa using this
  have ht : typed (l :: lines) = l.data ++ newline :: typed lines := by
    simp [typed, List.flatMap_cons]
  rw [ht]
  obtain ⟨data⟩ := l
  cases data with
  | nil => simp [scanWord, skipSpace]
  | cons c cs =>
    have hc : isSpace c = false := hl c (List.mem_cons_self _ _)
    have hcn : c ≠ newline := fun hn => by
      rw [hn, isSpace_newline] at hc
      exact Bool.noConfusion hc
    have hword : ∀ x ∈ c :: cs, (fun x => !isSpace x) x = true := by
      intro x hx
      simp [hl x hx]
    have h1 : List.takeWhile (fun x => !isSpace x) ((c :: cs) ++ newline :: typed lines)
        = c :: cs := by
      rw [List.takeWhile_append_of_pos hword]
      simp [List.takeWhile_cons, isSpace_newline]
    have h2 : List.dropWhile (fun x => !isSpace x) ((c :: cs) ++ newline :: typed lines)
        = newline :: typed lines := by
      rw [List.dropWhile_append_of_pos hword]
      simp [List.dropWhile_cons, isSpace_newline]
    show scanWord ((c :: cs) ++ newline :: typed lines) = _
    have h3 : skipSpace ((c :: cs) ++ newline :: typed lines)
        = .ok (c :: (cs ++ newline :: typed lines)) := by
      simp [skipSpace, hcn, hc]
    unfold scanWord
    rw [h3]
    simp only
    rw [← List.cons_append, h1, h2]
    simp [expectNewline]

theorem answers_typed (ds lines : List String) (h : ∀ l ∈ lines, oneWord l = true) :
    answers ds (typed lines) = lineAnswers ds lines := by
  induction ds generalizing lines with
  | nil => rfl
  | cons d ds ih =>
    cases lines with
    | nil =>
      have := ih [] (by simp)
      simp only [typed, List.flatMap_nil] at this
      simp [answers, lineAnswers, typed, scanWord_nil, this]
    | cons l lines =>
      rw [answers, scanWord_typed_cons l lines (h l (List.mem_cons_self _ _))]
      simp only [lineAnswers, List.headD_cons, List.tail_cons]
      rw [ih lines (fun l' hl' => h l' (List.mem_cons_of_mem _ hl'))]

theorem lineAnswers_mem_resp {ds lines : List String} {p : String × String}
    (hp : p ∈ lineAnswers ds lines) : p.2 ∈ lines ∨ p.2 = "" := by
  induction ds generalizing lines with
  | nil => simp [lineAnswers] at hp
  | cons d ds ih =>
    simp only [lineAnswers, List.mem_cons] at hp
    rcases hp with rfl | hp
    · cases lines with
      | nil => right; rfl
      | cons r rest => left; simp
    · rcases ih hp with h | h
      · left
        exact List.mem_of_mem_tail h
      · right
        exact h

theorem add_not_mem_confirmEvents (config : Config) (ok : Oracle) (current : GoMap)
    (hist : List Event) (resp d k v : String) (b : Bool) :
    Event.call (.add k v) b ∉ confirmEvents config ok current hist resp d := by
  unfold confirmEvents
  split
  · split
    · simp
    · split <;> simp
  · simp

theorem add_not_mem_phase2 (config : Config) (ok : Oracle) (desired current : GoMap)
    (w : World) (hw : ∀ k v b, Event.call (.add k v) b ∉ w.trace) (k v : String) (b : Bool) :
    Event.call (.add k v) b ∉ (phase2 config ok desired current w).trace := by
  rw [phase2_eq]
  split
  · exact hw k v b
  · refine foldl_inv (confirmEntry config ok current)
      (fun w' => ∀ k v b, Event.call (.add k v) b ∉ w'.trace) _ (fun w' a _ h k v b => ?_) _ ?_
      k v b
    · show Event.call (.add k v) b ∉ (confirmEntry config ok current w' a).trace
      rw [confirmEntry_trace, List.mem_append]
      rintro (h1 | h1)
      · exact h k v b h1
      · exact add_not_mem_confirmEvents _ _ _ _ _ _ _ _ _ h1
    · intro k v b
      simp only [World.log, List.mem_append, List.mem_singleton]
      rintro (h1 | h1)
      · exact hw k v b h1
      · exact Event.noConfusion h1

/-! ## Claims -/

/-- Counterexample to C1 as stated, on a store with the two stray records `c.lan` and
`z.lan`.  The operator answers the prompt for `c.lan` with "yes please", which is not
"y" or "yes", and `c.lan` is deleted.  The operator answers the prompt for `c.lan` with
"n yy" and types nothing more: every response is a decline, yet `z.lan` is deleted and
the deleted counter is 1. -/
theorem delete_without_affirmative_response :
    isYes "yes please" = false ∧
      Event.call (.delete "c.lan" "10.0.0.9") true
        ∈ (reconcile exampleConfig okAlways exampleDesired strayCurrent
            (typed ["yes please", "y"])).trace ∧
      (∀ l ∈ ["n yy"], isYes l = false) ∧
      Event.call (.delete "z.lan" "10.0.0.8") true
        ∈ (reconcile exampleConfig okAlways exampleDesired strayCurrent
            (typed ["n yy"])).trace ∧
      (reconcile exampleConfig okAlways exampleDesired strayCurrent
        (typed ["n yy"])).stats.Deleted = 1 ∧
      (reconcile exampleConfig okAlways exampleDesired strayCurrent
        (typed ["n yy"])).stats.Skipped = 1 ∧
      (toDelete exampleDesired strayCurrent).length = 2 := by
  decide

/-- C1, amended: a name that is absent from the desired map is deleted (a delete call in
a live run, a counted `[DRY] delete` in a dry run) only if the word that the read at
the one prompt for that name stored is "y" or "yes" in any case; the deleted counter
never exceeds the number of such words; when every word so read is a decline, no such
name is deleted, the deleted counter is 0 and the skipped counter is the number of
delete candidates.  When every response of the operator is one word or nothing, the
word read at a prompt is the response to that prompt (the empty one once the responses
are used up), so that with only declining responses nothing is deleted, the deleted
counter is 0 and the skipped counter is the number of delete candidates. -/
theorem delete_requires_affirmative_word (config : Config) (ok : Oracle)
    (desired current : GoMap) (input : List Char) :
    (∀ d ip, desired.get? d = none →
      ((∃ b, Event.call (.delete d ip) b ∈ (reconcile config ok desired current input).trace) ∨
        Event.log (.dryDelete d ip) ∈ (reconcile config ok desired current input).trace) →
      ∃ resp, isYes resp = true ∧
        ∀ ip' resp', Event.prompt d ip' resp' ∈ (reconcile config ok desired current input).trace
          ↔ (ip' = ip ∧ resp' = resp)) ∧
    (reconcile config ok desired current input).stats.Deleted
      ≤ (prompts (reconcile config ok desired current input).trace).countP
          (fun p => isYes p.2.2) ∧
    ((∀ p ∈ prompts (reconcile config ok desired current input).trace, isYes p.2.2 = false) →
      (∀ d ip, desired.get? d = none →
        (∀ b, Event.call (.delete d ip) b ∉ (reconcile config ok desired current input).trace) ∧
        Event.log (.dryDelete d ip) ∉ (reconcile config ok desired current input).trace) ∧
      (reconcile config ok desired current input).stats.Deleted = 0 ∧
      (reconcile config ok desired current input).stats.Skipped
        = (toDelete desired current).length) ∧
    (∀ lines : List String, input = typed lines → (∀ l ∈ lines, oneWord l = true) →
      prompts (reconcile config ok desired current input).trace
        = (lineAnswers (sortStrings (toDelete desired current)) lines).map
            (fun p => (p.1, current.get p.1, p.2)) ∧
      ((∀ l ∈ lines, isYes l = false) →
        (∀ d ip, desired.get? d = none →
          (∀ b, Event.call (.delete d ip) b
            ∉ (reconcile config ok desired current input).trace) ∧
          Event.log (.dryDelete d ip) ∉ (reconcile config ok desired current input).trace) ∧
        (reconcile config ok desired current input).stats.Deleted = 0 ∧
        (reconcile config ok desired current input).stats.Skipped
          = (toDelete desired current).length)) := by
  have key : ∀ d ip, desired.get? d = none →
      ((∃ b, Event.call (.delete d ip) b ∈ (reconcile config ok desired current input).trace) ∨
        Event.log (.dryDelete d ip) ∈ (reconcile config ok desired current input).trace) →
      ∃ resp, isYes resp = true ∧
        ∀ ip' resp', Event.prompt d ip' resp' ∈ (reconcile config ok desired current input).trace
          ↔ (ip' = ip ∧ resp' = resp) := by
    intro d ip hd h
    have h' : (∃ b, Event.call (.delete d ip) b
          ∈ (reconcile config ok desired current input).trace.filter (about d)) ∨
        Event.log (.dryDelete d ip)
          ∈ (reconcile config ok desired current input).trace.filter (about d) := by
      rcases h with ⟨b, hb⟩ | hb
      · exact Or.inl ⟨b, mem_filter_about hb rfl⟩
      · exact Or.inr (mem_filter_about hb rfl)
    by_cases hcand : d ∈ toDelete desired current
    · obtain ⟨hist, resp, hf⟩ :=
        reconcile_filter_candidate config ok desired current input d hcand
      rw [hf] at h'
      obtain ⟨hy, hip⟩ := mem_confirmEvents_delete h'
      refine ⟨resp, hy, fun ip' resp' => ⟨fun hp => ?_, fun hp => ?_⟩⟩
      · have hp' := mem_filter_about hp (n := d) rfl
        rw [hf] at hp'
        obtain ⟨_, h1, h2⟩ := mem_confirmEvents_prompt hp'
        exact ⟨h1.trans hip.symm, h2⟩
      · obtain ⟨rfl, rfl⟩ := hp
        have := prompt_mem_confirmEvents config ok current hist resp' d
        rw [← hf, ← hip] at this
        exact List.mem_of_mem_filter this
    · rw [reconcile_filter_other config ok desired current input d hd hcand] at h'
      simp at h'
  have hprompts : (prompts (reconcile config ok desired current input).trace).countP
        (fun p => isYes p.2.2)
      = (answers (sortStrings (toDelete desired current)) input).countP
          (fun a => isYes a.2) := by
    rw [reconcile_prompts, List.countP_map]
    rfl
  have declines : (∀ p ∈ prompts (reconcile config ok desired current input).trace,
        isYes p.2.2 = false) →
      (∀ d ip, desired.get? d = none →
        (∀ b, Event.call (.delete d ip) b ∉ (reconcile config ok desired current input).trace) ∧
        Event.log (.dryDelete d ip) ∉ (reconcile config ok desired current input).trace) ∧
      (reconcile config ok desired current input).stats.Deleted = 0 ∧
      (reconcile config ok desired current input).stats.Skipped
        = (toDelete desired current).length := by
    intro hno
    have hdecl : ∀ a ∈ answers (sortStrings (toDelete desired current)) input,
        isYes a.2 = false := by
      intro a ha
      have := hno (a.1, current.get a.1, a.2) (by
        rw [reconcile_prompts]
        exact List.mem_map_of_mem _ ha)
      exact this
    refine ⟨fun d ip hd => ?_, ?_, ?_⟩
    · have hnone : ¬ ((∃ b, Event.call (.delete d ip) b
            ∈ (reconcile config ok desired current input).trace) ∨
          Event.log (.dryDelete d ip) ∈ (reconcile config ok desired current input).trace) := by
        intro h
        obtain ⟨resp, hy, hp⟩ := key d ip hd h
        have := hno (d, ip, resp) (mem_prompts.2 ((hp ip resp).2 ⟨rfl, rfl⟩))
        rw [hy] at this
        exact Bool.noConfusion this
      exact ⟨fun b hb => hnone (Or.inl ⟨b, hb⟩), fun hb => hnone (Or.inr hb)⟩
    · have h := reconcile_deleted_le config ok desired current input
      have h0 : (answers (sortStrings (toDelete desired current)) input).countP
          (fun a => isYes a.2) = 0 := by
        rw [List.countP_eq_zero]
        intro a ha
        simp [hdecl a ha]
      omega
    · rw [reconcile_skipped]
      have h0 : (answers (sortStrings (toDelete desired current)) input).countP
          (fun a => !isYes a.2)
          = (answers (sortStrings (toDelete desired current)) input).length := by
        rw [List.countP_eq_length]
        intro a ha
        simp [hdecl a ha]
      rw [h0, answers_length, length_sortStrings]
  refine ⟨key, ?_, declines, fun lines hin hone => ?_⟩
  · rw [hprompts]
    exact reconcile_deleted_le config ok desired current input
  · have hp : prompts (reconcile config ok desired current input).trace
        = (lineAnswers (sortStrings (toDelete desired current)) lines).map
            (fun p => (p.1, current.get p.1, p.2)) := by
      rw [reconcile_prompts, hin, answers_typed _ _ hone]
    refine ⟨hp, fun hno => declines ?_⟩
    intro p hmem
    rw [hp, List.mem_map] at hmem
    obtain ⟨a, ha, rfl⟩ := hmem
    rcases lineAnswers_mem_resp ha with h | h
    · exact hno _ h
    · show isYes a.2 = false
      rw [h]
      exact isYes_empty

/-- Witness of C1 as amended on the example scenario, the operator typing one word: with
the response "Yes" the delete of `c.lan` is in the trace and the word read at its one
prompt is affirmative; with the response "n" nothing is deleted and the one candidate is
skipped. -/
theorem delete_requires_affirmative_word_witness :
    (∃ resp, isYes resp = true ∧ ∀ ip' resp',
        Event.prompt "c.lan" ip' resp'
            ∈ (reconcile exampleConfig okAlways exampleDesired exampleCurrent
                (typed ["Yes"])).trace
          ↔ (ip' = "10.0.0.9" ∧ resp' = resp)) ∧
      prompts (reconcile exampleConfig okAlways exampleDesired exampleCurrent
          (typed ["n"])).trace = [("c.lan", "10.0.0.9", "n")] ∧
      (reconcile exampleConfig okAlways exampleDesired exampleCurrent
        (typed ["n"])).stats.Deleted = 0 ∧
      (reconcile exampleConfig okAlways exampleDesired exampleCurrent
        (typed ["n"])).stats.Skipped = 1 :=
  have h1 := (delete_requires_affirmative_word exampleConfig okAlways exampleDesired
    exampleCurrent (typed ["Yes"])).1 "c.lan" "10.0.0.9" (by decide)
    (Or.inl ⟨true, by decide⟩)
  have h2 := (delete_requires_affirmative_word exampleConfig okAlways exampleDesired
    exampleCurrent (typed ["n"])).2.2.2 ["n"] rfl (by decide)
  have h3 := h2.2 (by decide)
  ⟨h1, h2.1.trans (by decide), h3.2.1, h3.2.2.trans (by decide)⟩

/-- C2: in a live run, for a desired entry whose name the current map holds with another
address, phase 1 calls delete(name, old) first; if that fails, it is the only call on
the name (no add is attempted) and the update is not counted; if it succeeds, add(name,
new) follows as the second and last call on the name.  The updated counter is the number
of entries whose delete and add both succeeded, so every entry is processed whatever
happened to the others; phase 2 adds no call on the name and leaves the counter. -/
theorem update_deletes_then_adds (config : Config) (ok : Oracle) (desired current : GoMap)
    (input : List Char) (hlive : config.DryRun = false) (name newAddr oldAddr : String)
    (he : (name, newAddr) ∈ desired.entries) (hc : current.get? name = some oldAddr)
    (hne : oldAddr ≠ newAddr) :
    ((callsOn name (phase1 config ok desired current (World.init input)).trace
          = [(.delete name oldAddr, false)] ∧
        updateSucceeded current (name, newAddr)
          (phase1 config ok desired current (World.init input)).trace = false) ∨
      (callsOn name (phase1 config ok desired current (World.init input)).trace
          = [(.delete name oldAddr, true), (.add name newAddr, false)] ∧
        updateSucceeded current (name, newAddr)
          (phase1 config ok desired current (World.init input)).trace = false) ∨
      (callsOn name (phase1 config ok desired current (World.init input)).trace
          = [(.delete name oldAddr, true), (.add name newAddr, true)] ∧
        updateSucceeded current (name, newAddr)
          (phase1 config ok desired current (World.init input)).trace = true)) ∧
    (phase1 config ok desired current (World.init input)).stats.Updated
      = (desired.entries.filter (fun e => updateSucceeded current e
          (phase1 config ok desired current (World.init input)).trace)).length ∧
    callsOn name (reconcile config ok desired current input).trace
      = callsOn name (phase1 config ok desired current (World.init input)).trace ∧
    (reconcile config ok desired current input).stats.Updated
      = (phase1 config ok desired current (World.init input)).stats.Updated := by
  refine ⟨?_, phase1_updated_live config ok desired current input hlive, ?_,
    (reconcile_added_updated config ok desired current input).2⟩
  · obtain ⟨hist, h⟩ :=
      phase1_filter_of_mem config ok desired current (World.init input) (name, newAddr) he
    simp only [World.init, List.filter_nil, List.nil_append] at h
    rw [callsOn_eq, updateSucceeded_filter, World.init, h]
    unfold syncEvents updateSucceeded
    simp only [hc]
    cases hok : ok hist (.delete name oldAddr)
    · left
      simp [hlive, hne, hok, storeCalls]
    · cases hok2 : ok (hist ++ [.call (.delete name oldAddr) true]) (.add name newAddr)
      · right; left
        simp [hlive, hne, hok, hok2, storeCalls]
      · right; right
        simp [hlive, hne, hok, hok2, storeCalls]
  · rw [callsOn_eq, callsOn_eq,
      reconcile_filter_eq_phase1 _ _ _ _ _ _ (not_mem_toDelete_of_mem current he)]

/-- Witness of C2 on the example maps with `a.lan` stale in the store, the store rejecting
every call: the one call on `a.lan` is the failed delete and nothing is counted. -/
theorem update_deletes_then_adds_witness :
    callsOn "a.lan" (phase1 exampleConfig okNever exampleDesired staleCurrent (World.init [])).trace
        = [(.delete "a.lan" "10.0.0.7", false)] ∧
      (phase1 exampleConfig okNever exampleDesired staleCurrent (World.init [])).stats.Updated
        = 0 ∧
      callsOn "a.lan" (phase1 exampleConfig okAlways exampleDesired staleCurrent (World.init [])).trace
        = [(.delete "a.lan" "10.0.0.7", true), (.add "a.lan" "10.0.0.1", true)] ∧
      (reconcile exampleConfig okAlways exampleDesired staleCurrent []).stats.Updated = 1 :=
  have h1 := update_deletes_then_adds exampleConfig okNever exampleDesired staleCurrent []
    (by decide) "a.lan" "10.0.0.1" "10.0.0.7" (by decide) (by decide) (by decide)
  have h2 := update_deletes_then_adds exampleConfig okAlways exampleDesired staleCurrent []
    (by decide) "a.lan" "10.0.0.1" "10.0.0.7" (by decide) (by decide) (by decide)
  ⟨by decide, h1.2.1.trans (by decide), by decide, h2.2.2.2.trans (by decide)⟩

/-- C3: in a live run, for a desired entry whose name the current map does not hold, phase
1 issues exactly one call on the name, add(name, addr), whatever the store answers to it
or to any other call, and the run issues no other call on the name; the final added
counter is the number of such entries whose add succeeded. -/
theorem add_for_absent_name (config : Config) (ok : Oracle) (desired current : GoMap)
    (input : List Char) (hlive : config.DryRun = false) (name addr : String)
    (he : (name, addr) ∈ desired.entries) (hc : current.get? name = none) :
    (∃ b, callsOn name (phase1 config ok desired current (World.init input)).trace
        = [(.add name addr, b)] ∧
      addSucceeded current (name, addr)
        (phase1 config ok desired current (World.init input)).trace = b) ∧
    callsOn name (reconcile config ok desired current input).trace
      = callsOn name (phase1 config ok desired current (World.init input)).trace ∧
    (reconcile config ok desired current input).stats.Added
      = (desired.entries.filter (fun e => addSucceeded current e
          (phase1 config ok desired current (World.init input)).trace)).length := by
  refine ⟨?_, ?_, ?_⟩
  · obtain ⟨hist, h⟩ :=
      phase1_filter_of_mem config ok desired current (World.init input) (name, addr) he
    simp only [World.init, List.filter_nil, List.nil_append] at h
    refine ⟨ok hist (.add name addr), ?_⟩
    rw [callsOn_eq, addSucceeded_filter, World.init, h]
    unfold syncEvents addSucceeded
    simp only [hc]
    cases hok : ok hist (.add name addr) <;> simp [hlive, hok, storeCalls]
  · rw [callsOn_eq, callsOn_eq,
      reconcile_filter_eq_phase1 _ _ _ _ _ _ (not_mem_toDelete_of_mem current he)]
  · rw [(reconcile_added_updated config ok desired current input).1]
    exact phase1_added_live config ok desired current input hlive

/-- Witness of C3, the example scenario of the specification: one add, of `b.lan` to
`10.0.0.2`, is the only call of phase 1, `added` is 1 and `updated` is 0. -/
theorem add_for_absent_name_witness :
    storeCalls (phase1 exampleConfig okAlways exampleDesired exampleCurrent (World.init [])).trace
        = [(.add "b.lan" "10.0.0.2", true)] ∧
      callsOn "b.lan" (reconcile exampleConfig okAlways exampleDesired exampleCurrent []).trace
        = [(.add "b.lan" "10.0.0.2", true)] ∧
      (reconcile exampleConfig okAlways exampleDesired exampleCurrent []).stats.Added = 1 ∧
      (reconcile exampleConfig okAlways exampleDesired exampleCurrent []).stats.Updated = 0 :=
  have h := add_for_absent_name exampleConfig okAlways exampleDesired exampleCurrent []
    (by decide) "b.lan" "10.0.0.2" (by decide) (by decide)
  ⟨by decide, h.2.1.trans (by decide), h.2.2.trans (by decide), by decide⟩

/-- C4: with the dry-run flag set, whatever the maps, the responses and the store would
answer, the run issues no add and no delete, neither from the two phases nor from `main`
as a whole, and the listing of the store is what it was. -/
theorem dry_run_issues_no_store_call (config : Config) (ok : Oracle) (desired current : GoMap)
    (input : List Char) (vms : List (VMResource × String)) (rewrites : List Rewrite)
    (rangeDesired rangeCurrent : RangeOrder) (store : List Rewrite)
    (hdry : config.DryRun = true) :
    storeCalls (reconcile config ok desired current input).trace = [] ∧
      storeAfter store (reconcile config ok desired current input).trace = store ∧
      storeCalls (main config vms rewrites rangeDesired rangeCurrent ok input).trace = [] ∧
      storeAfter store (main config vms rewrites rangeDesired rangeCurrent ok input).trace
        = store := by
  have h1 := reconcile_storeCalls_dry config ok desired current input hdry
  have h2 : storeCalls (main config vms rewrites rangeDesired rangeCurrent ok input).trace
      = [] := by
    by_cases h : (buildDesired config vms).len = 0
    · rw [main_of_len_eq_zero _ _ _ _ _ _ _ h]
      rfl
    · rw [main_of_len_ne_zero _ _ _ _ _ _ _ h]
      exact reconcile_storeCalls_dry config ok _ _ input hdry
  refine ⟨h1, ?_, h2, ?_⟩
  · unfold storeAfter
    rw [h1]
    rfl
  · unfold storeAfter
    rw [h2]
    rfl

/-- Witness of C4 on the example scenario, every deletion confirmed. -/
theorem dry_run_issues_no_store_call_witness :
    storeCalls (reconcile { exampleConfig with DryRun := true } okAlways exampleDesired
        exampleCurrent (typed ["yes"])).trace = [] ∧
      (reconcile { exampleConfig with DryRun := true } okAlways exampleDesired
        exampleCurrent (typed ["yes"])).stats = ⟨1, 0, 1, 0⟩ :=
  ⟨(dry_run_issues_no_store_call { exampleConfig with DryRun := true } okAlways exampleDesired
    exampleCurrent (typed ["yes"]) [] [] RangeOrder.stored RangeOrder.stored [] rfl).1, by decide⟩

/-- Counterexample to C5 as stated: with one running instance that has no address, or
with no running instance at all, `c.lan` is in the store and in no desired map, and
`main` ends without prompting for it. -/
theorem no_prompt_without_desired_entry :
    (buildCurrent [⟨"c.lan", "10.0.0.9"⟩]).get? "c.lan" = some "10.0.0.9" ∧
      (buildDesired exampleConfig [(⟨101, "web", "lxc", "running"⟩, "")]).get? "c.lan" = none ∧
      "c.lan" ∉ (prompts (main exampleConfig [(⟨101, "web", "lxc", "running"⟩, "")]
        [⟨"c.lan", "10.0.0.9"⟩] RangeOrder.stored RangeOrder.stored okAlways (typed ["y"])).trace).map
          Prod.fst ∧
      main exampleConfig [(⟨101, "web", "lxc", "running"⟩, "")]
        [⟨"c.lan", "10.0.0.9"⟩] RangeOrder.stored RangeOrder.stored okAlways (typed ["y"])
          = .nothingToSync ∧
      (buildDesired exampleConfig []).get? "c.lan" = none ∧
      "c.lan" ∉ (prompts (main exampleConfig [] [⟨"c.lan", "10.0.0.9"⟩] RangeOrder.stored
        RangeOrder.stored okAlways (typed ["y"])).trace).map Prod.fst ∧
      main exampleConfig [] [⟨"c.lan", "10.0.0.9"⟩] RangeOrder.stored RangeOrder.stored
        okAlways (typed ["y"]) = .nothingToDo := by
  decide

/-- C5, amended: when the desired map that `main` builds is not empty, the names prompted
for are exactly the names that the current map holds and the desired map does not; when
it is empty (no running instance, or none with an address), `main` ends before the
reconciliation and prompts for nothing. -/
theorem main_prompts_candidates (config : Config) (vms : List (VMResource × String))
    (rewrites : List Rewrite) (rangeDesired rangeCurrent : RangeOrder) (ok : Oracle)
    (input : List Char) :
    ((buildDesired config vms).len ≠ 0 → ∀ name,
      name ∈ (prompts (main config vms rewrites rangeDesired rangeCurrent ok input).trace).map
          Prod.fst
        ↔ ((buildCurrent rewrites).get? name ≠ none ∧
            (buildDesired config vms).get? name = none)) ∧
    ((buildDesired config vms).len = 0 →
      prompts (main config vms rewrites rangeDesired rangeCurrent ok input).trace = []) := by
  constructor
  · intro h name
    rw [main_of_len_ne_zero _ _ _ _ _ _ _ h]
    show name ∈ (prompts (reconcile _ _ _ _ _).trace).map Prod.fst ↔ _
    rw [reconcile_promptNames, mem_sortStrings, mem_toDelete]
    have h1 : (rangeDesired.apply (buildDesired config vms)).get? name
        = (buildDesired config vms).get? name := GoMap.get?_congr (rangeDesired.perm _) name
    have h2 : name ∈ (rangeCurrent.apply (buildCurrent rewrites)).keys
        ↔ (buildCurrent rewrites).get? name ≠ none := by
      rw [← GoMap.get?_congr (rangeCurrent.perm _) name, Ne, GoMap.get?_eq_none_iff, not_not]
    rw [h1, h2]
  · intro h
    rw [main_of_len_eq_zero _ _ _ _ _ _ _ h]
    rfl

/-- Witness of C5 as amended on the example scenario: `c.lan` is the one name prompted
for. -/
theorem main_prompts_candidates_witness :
    ("c.lan" ∈ (prompts (main exampleConfig
        [(⟨101, "a", "lxc", "running"⟩, "10.0.0.1"), (⟨102, "b", "qemu", "running"⟩, "10.0.0.2")]
        [⟨"a", "10.0.0.1"⟩, ⟨"c.lan", "10.0.0.9"⟩] RangeOrder.stored RangeOrder.stored okAlways
        []).trace).map Prod.fst
      ↔ ((buildCurrent [⟨"a", "10.0.0.1"⟩, ⟨"c.lan", "10.0.0.9"⟩]).get? "c.lan" ≠ none ∧
          (buildDesired exampleConfig [(⟨101, "a", "lxc", "running"⟩, "10.0.0.1"),
            (⟨102, "b", "qemu", "running"⟩, "10.0.0.2")]).get? "c.lan" = none)) ∧
      prompts (main exampleConfig [] [⟨"c.lan", "10.0.0.9"⟩] RangeOrder.stored
        RangeOrder.stored okAlways (typed ["y"])).trace = [] :=
  ⟨(main_prompts_candidates exampleConfig
      [(⟨101, "a", "lxc", "running"⟩, "10.0.0.1"), (⟨102, "b", "qemu", "running"⟩, "10.0.0.2")]
      [⟨"a", "10.0.0.1"⟩, ⟨"c.lan", "10.0.0.9"⟩] RangeOrder.stored RangeOrder.stored okAlways
      []).1 (by decide) "c.lan",
    (main_prompts_candidates exampleConfig [] [⟨"c.lan", "10.0.0.9"⟩] RangeOrder.stored
      RangeOrder.stored okAlways (typed ["y"])).2 (by decide)⟩

/-- C6: the names prompted for are in strictly ascending order (so none is prompted for
twice), and the prompts depend on the two maps as maps only: visiting the entries of
either map in another order gives the same names and addresses in the same order, and
with the same responses the same prompts. -/
theorem prompts_ascending_and_order_free (config : Config) (ok : Oracle)
    (desired current : GoMap) (input : List Char) :
    ((prompts (reconcile config ok desired current input).trace).map Prod.fst).Sorted
        (· < ·) ∧
      ((prompts (reconcile config ok desired current input).trace).map Prod.fst).Nodup ∧
      ∀ (config' : Config) (ok' : Oracle) (desired' current' : GoMap) (input' : List Char),
        desired'.entries.Perm desired.entries → current'.entries.Perm current.entries →
        (prompts (reconcile config' ok' desired' current' input').trace).map
            (fun p => (p.1, p.2.1))
          = (prompts (reconcile config ok desired current input).trace).map
              (fun p => (p.1, p.2.1)) ∧
        (input' = input →
          prompts (reconcile config' ok' desired' current' input').trace
            = prompts (reconcile config ok desired current input).trace) := by
  have hs := sortStrings_lt (toDelete_nodup desired current)
  refine ⟨?_, ?_, ?_⟩
  · rw [reconcile_promptNames]
    exact hs
  · rw [reconcile_promptNames]
    exact hs.nodup
  · intro config' ok' desired' current' input' hd hc
    have hsort : sortStrings (toDelete desired' current') = sortStrings (toDelete desired current) :=
      sortStrings_congr (toDelete_congr hd hc)
    have hget : ∀ d, current'.get d = current.get d := GoMap.get_congr hc
    constructor
    · rw [reconcile_prompts, reconcile_prompts, hsort, List.map_map, List.map_map]
      have h1 : ∀ inp : List Char,
          List.map ((fun p : String × String × String => (p.1, p.2.1)) ∘
              fun p : String × String => (p.1, current.get p.1, p.2))
            (answers (sortStrings (toDelete desired current)) inp)
          = (sortStrings (toDelete desired current)).map (fun d => (d, current.get d)) := by
        intro inp
        have := congrArg (List.map (fun d => (d, current.get d)))
          (answers_map_fst (sortStrings (toDelete desired current)) inp)
        rw [List.map_map] at this
        exact this
      have h2 : ((fun p : String × String × String => (p.1, p.2.1)) ∘
            fun p : String × String => (p.1, current'.get p.1, p.2))
          = ((fun p : String × String × String => (p.1, p.2.1)) ∘
            fun p : String × String => (p.1, current.get p.1, p.2)) := by
        funext p
        simp [hget]
      rw [h2, h1, h1]
    · intro hin
      rw [reconcile_prompts, reconcile_prompts, hsort, hin]
      have h2 : (fun p : String × String => (p.1, current'.get p.1, p.2))
          = (fun p : String × String => (p.1, current.get p.1, p.2)) := by
        funext p
        simp [hget]
      rw [h2]

/-- Witness of C6 on a store with two stray records, the maps visited in two orders:
the prompts are for `c.lan` and then `z.lan` either way. -/
theorem prompts_ascending_and_order_free_witness :
    (prompts (reconcile exampleConfig okAlways exampleDesiredSwapped strayCurrentSwapped
        (typed ["y"])).trace).map (fun p => (p.1, p.2.1))
      = (prompts (reconcile exampleConfig okAlways exampleDesired strayCurrent
          (typed ["y"])).trace).map (fun p => (p.1, p.2.1)) ∧
      (prompts (reconcile exampleConfig okAlways exampleDesired strayCurrent (typed ["y"])).trace).map
        Prod.fst = ["c.lan", "z.lan"] :=
  ⟨((prompts_ascending_and_order_free exampleConfig okAlways exampleDesired strayCurrent
      (typed ["y"])).2.2 exampleConfig okAlways exampleDesiredSwapped strayCurrentSwapped (typed ["y"])
      (List.Perm.swap _ _ _) (List.Perm.swap _ _ _)).1, by decide⟩

/-- Counterexample to C7 as stated, every first run live.  After a first run in which
the one candidate `c.lan` is declined, the second run finds `c.lan` as a candidate
again.  After a first run in which the store rejects every call, the add of `b.lan` and
the confirmed delete of `c.lan` among them, the second run adds `b.lan` and finds
`c.lan` again.  After a first run on a store that holds two addresses for `c.lan`,
the deletion confirmed and every call accepted, the second run finds `c.lan` again. -/
theorem second_run_not_idle :
    toDelete exampleDesired (buildCurrent (listingAfter exampleConfig okAlways exampleDesired
        [⟨"a.lan", "10.0.0.1"⟩, ⟨"c.lan", "10.0.0.9"⟩] RangeOrder.stored (typed ["n"])))
      = ["c.lan"] ∧
    (reconcile exampleConfig okAlways exampleDesired (buildCurrent (listingAfter exampleConfig
        okNever exampleDesired [⟨"a.lan", "10.0.0.1"⟩, ⟨"c.lan", "10.0.0.9"⟩]
        RangeOrder.stored (typed ["y"]))) []).stats.Added = 1 ∧
    toDelete exampleDesired (buildCurrent (listingAfter exampleConfig okNever exampleDesired
        [⟨"a.lan", "10.0.0.1"⟩, ⟨"c.lan", "10.0.0.9"⟩] RangeOrder.stored (typed ["y"])))
      = ["c.lan"] ∧
    toDelete exampleDesired (buildCurrent (listingAfter exampleConfig okAlways exampleDesired
        [⟨"a.lan", "10.0.0.1"⟩, ⟨"b.lan", "10.0.0.2"⟩, ⟨"c.lan", "10.0.0.8"⟩,
          ⟨"c.lan", "10.0.0.9"⟩] RangeOrder.stored (typed ["y"])))
      = ["c.lan"] := by
  decide

/-- C7, amended: if every store call of a first live run succeeds and the run is applied
to the store, then a second run with the same desired map against the store as updated
(any mode, any store behaviour, any input, any order of visiting the maps) performs zero
adds and zero updates: its phase 1 does nothing.  Its delete candidates are exactly the
candidates of the first run that were declined or of which the listing held a further
address; so the candidate set is empty, and the second run only prints the summary with
four zeros, when every candidate of the first run was confirmed and the listing held at
most one address per name. -/
theorem second_run_after_accepted_calls (config config2 : Config) (ok ok2 : Oracle)
    (desired : GoMap) (listing : List Rewrite) (input input2 : List Char)
    (rangeCurrent rangeDesired2 rangeCurrent2 : RangeOrder)
    (hlive : config.DryRun = false)
    (hok : ∀ c ∈ storeCalls (runOn config ok desired listing rangeCurrent input).trace,
      c.2 = true) :
    phase1 config2 ok2 (rangeDesired2.apply desired)
        (rangeCurrent2.apply (buildCurrent
          (listingAfter config ok desired listing rangeCurrent input)))
        (World.init input2) = World.init input2 ∧
    (runOn config2 ok2 (rangeDesired2.apply desired)
        (listingAfter config ok desired listing rangeCurrent input) rangeCurrent2
        input2).stats.Added = 0 ∧
    (runOn config2 ok2 (rangeDesired2.apply desired)
        (listingAfter config ok desired listing rangeCurrent input) rangeCurrent2
        input2).stats.Updated = 0 ∧
    (∀ k v b, Event.call (.add k v) b
      ∉ (runOn config2 ok2 (rangeDesired2.apply desired)
          (listingAfter config ok desired listing rangeCurrent input) rangeCurrent2
          input2).trace) ∧
    (∀ d, d ∈ toDelete (rangeDesired2.apply desired)
          (rangeCurrent2.apply (buildCurrent
            (listingAfter config ok desired listing rangeCurrent input)))
        ↔ (desired.get? d = none ∧
            ((∃ ip resp, Event.prompt d ip resp
                  ∈ (runOn config ok desired listing rangeCurrent input).trace ∧
                isYes resp = false) ∨
              ∃ r ∈ listing, r.Domain = d ∧
                r.Answer ≠ (rangeCurrent.apply (buildCurrent listing)).get d))) ∧
    ((∀ p ∈ prompts (runOn config ok desired listing rangeCurrent input).trace,
        isYes p.2.2 = true) →
      (∀ r ∈ listing, ∀ r' ∈ listing, r.Domain = r'.Domain → r.Answer = r'.Answer) →
      toDelete (rangeDesired2.apply desired)
          (rangeCurrent2.apply (buildCurrent
            (listingAfter config ok desired listing rangeCurrent input))) = [] ∧
        (runOn config2 ok2 (rangeDesired2.apply desired)
          (listingAfter config ok desired listing rangeCurrent input) rangeCurrent2
          input2).trace = [.log (.complete ⟨0, 0, 0, 0⟩)]) := by
  have e : runOn config ok desired listing rangeCurrent input
      = runOn config okAlways desired listing rangeCurrent input :=
    reconcile_of_calls_succeed config ok desired
      (rangeCurrent.apply (buildCurrent listing)) input
      (fun op b hmem => hok (op, b) (mem_storeCalls.2 hmem))
  have el : listingAfter config ok desired listing rangeCurrent input
      = listingAfter config okAlways desired listing rangeCurrent input := by
    unfold listingAfter
    rw [e]
  rw [el, e]
  have hacc : ∀ hist op, okAlways hist op = true := fun _ _ => rfl
  have hphase1 : ∀ x ∈ (rangeDesired2.apply desired).entries,
      (rangeCurrent2.apply (buildCurrent
        (listingAfter config okAlways desired listing rangeCurrent input))).get? x.1
        = some x.2 := by
    intro x hx
    rw [GoMap.get?_congr (rangeCurrent2.perm _)]
    have hd : desired.get? x.1 = some x.2 := by
      rw [← GoMap.get?_congr (rangeDesired2.perm desired)]
      exact GoMap.get?_of_mem _ hx
    exact get?_after_accepting_run config okAlways desired listing rangeCurrent input hlive
      hacc x.1 x.2 hd
  have h1 := phase1_of_agree config2 ok2 (rangeDesired2.apply desired) _ (World.init input2)
    hphase1
  have hcand : ∀ d, d ∈ toDelete (rangeDesired2.apply desired)
        (rangeCurrent2.apply (buildCurrent
          (listingAfter config okAlways desired listing rangeCurrent input)))
      ↔ (desired.get? d = none ∧
          ((∃ ip resp, Event.prompt d ip resp
                ∈ (runOn config okAlways desired listing rangeCurrent input).trace ∧
              isYes resp = false) ∨
            ∃ r ∈ listing, r.Domain = d ∧
              r.Answer ≠ (rangeCurrent.apply (buildCurrent listing)).get d)) := by
    intro d
    rw [mem_toDelete, GoMap.get?_congr (rangeDesired2.perm desired), and_comm]
    refine and_congr_right (fun hd => ?_)
    have hk : d ∈ (rangeCurrent2.apply (buildCurrent
          (listingAfter config okAlways desired listing rangeCurrent input))).keys
        ↔ (buildCurrent (listingAfter config okAlways desired listing rangeCurrent
            input)).get? d ≠ none := by
      rw [← GoMap.get?_congr (rangeCurrent2.perm _) d, Ne, GoMap.get?_eq_none_iff, not_not]
    rw [hk]
    exact mem_keys_after_accepting_run config okAlways desired listing rangeCurrent input
      hlive hacc d hd
  have hstats := reconcile_added_updated config2 ok2 (rangeDesired2.apply desired)
    (rangeCurrent2.apply (buildCurrent
      (listingAfter config okAlways desired listing rangeCurrent input))) input2
  rw [h1] at hstats
  refine ⟨h1, hstats.1, hstats.2, fun k v b => ?_, hcand, fun hyes hone => ?_⟩
  · show Event.call (.add k v) b ∉ (reconcile config2 ok2 _ _ input2).trace
    rw [reconcile_trace, h1, List.mem_append]
    rintro (h | h)
    · exact add_not_mem_phase2 config2 ok2 _ _ _ (fun _ _ _ h0 => by simp [World.init] at h0)
        k v b h
    · simp at h
  · have hempty : toDelete (rangeDesired2.apply desired)
        (rangeCurrent2.apply (buildCurrent
          (listingAfter config okAlways desired listing rangeCurrent input))) = [] := by
      rw [List.eq_nil_iff_forall_not_mem]
      intro d hd
      obtain ⟨hdes, hcase⟩ := (hcand d).1 hd
      rcases hcase with ⟨ip, resp, hp, hno⟩ | ⟨r, hr, hdom, hne⟩
      · rw [hyes (d, ip, resp) (mem_prompts.2 hp)] at hno
        exact Bool.noConfusion hno
      · apply hne
        have hget : (buildCurrent listing).get? d ≠ none :=
          buildCurrent_get?_ne_none.2 ⟨r.Answer, by rw [← hdom]; exact hr⟩
        cases hc : (buildCurrent listing).get? d with
        | none => exact absurd hc hget
        | some c =>
          have hmem := buildCurrent_mem_of_get? hc
          have : (rangeCurrent.apply (buildCurrent listing)).get d = c := by
            simp [GoMap.get, GoMap.get?_congr (rangeCurrent.perm _), hc]
          rw [this]
          exact hone r hr _ hmem hdom
    refine ⟨hempty, ?_⟩
    show (reconcile config2 ok2 _ _ input2).trace = _
    rw [reconcile_of_idle config2 ok2 _ _ input2 hphase1 hempty]

/-- Witness of C7 as amended.  The first run updates `a.lan`, adds `b.lan` and, confirmed,
deletes `c.lan`; the second run, although its store rejects every call, has nothing to
do.  With the deletion declined the second run still adds and updates nothing, and
`c.lan` is its one candidate. -/
theorem second_run_after_accepted_calls_witness :
    (runOn exampleConfig okNever exampleDesired
        (listingAfter exampleConfig okAlways exampleDesired
          [⟨"a.lan", "10.0.0.7"⟩, ⟨"c.lan", "10.0.0.9"⟩] RangeOrder.stored (typed ["y"]))
        RangeOrder.stored (typed ["y"])).trace = [.log (.complete ⟨0, 0, 0, 0⟩)] ∧
    listingAfter exampleConfig okAlways exampleDesired
        [⟨"a.lan", "10.0.0.7"⟩, ⟨"c.lan", "10.0.0.9"⟩] RangeOrder.stored (typed ["y"])
      = [⟨"a.lan", "10.0.0.1"⟩, ⟨"b.lan", "10.0.0.2"⟩] ∧
    (runOn exampleConfig okNever exampleDesired
        (listingAfter exampleConfig okAlways exampleDesired
          [⟨"a.lan", "10.0.0.7"⟩, ⟨"c.lan", "10.0.0.9"⟩] RangeOrder.stored (typed ["n"]))
        RangeOrder.stored (typed ["y"])).stats.Added = 0 ∧
    toDelete exampleDesired (buildCurrent
        (listingAfter exampleConfig okAlways exampleDesired
          [⟨"a.lan", "10.0.0.7"⟩, ⟨"c.lan", "10.0.0.9"⟩] RangeOrder.stored (typed ["n"])))
      = ["c.lan"] :=
  have h1 := second_run_after_accepted_calls exampleConfig exampleConfig okAlways okNever
    exampleDesired [⟨"a.lan", "10.0.0.7"⟩, ⟨"c.lan", "10.0.0.9"⟩] (typed ["y"]) (typed ["y"])
    RangeOrder.stored RangeOrder.stored RangeOrder.stored rfl (by decide)
  have h2 := second_run_after_accepted_calls exampleConfig exampleConfig okAlways okNever
    exampleDesired [⟨"a.lan", "10.0.0.7"⟩, ⟨"c.lan", "10.0.0.9"⟩] (typed ["n"]) (typed ["y"])
    RangeOrder.stored RangeOrder.stored RangeOrder.stored rfl (by decide)
  ⟨(h1.2.2.2.2.2 (by decide) (by decide)).2, by decide, h2.2.1, by decide⟩

/-- C8: the four counters of a dry run equal the four counters of a live run on the same
maps and responses in which every store call succeeds, and both are the intended ones:
`added` the number of desired names absent from the current map, `updated` the number
present with a different address, `deleted` the number of confirmed candidates and
`skipped` the number of declined candidates. -/
theorem dry_run_counters_match_live (dry live : Config) (ok okLive : Oracle)
    (desired current : GoMap) (input : List Char) (hdry : dry.DryRun = true)
    (hlive : live.DryRun = false)
    (hok : ∀ c ∈ storeCalls (reconcile live okLive desired current input).trace, c.2 = true) :
    (reconcile dry ok desired current input).stats
        = (reconcile live okLive desired current input).stats ∧
      (reconcile dry ok desired current input).stats = intendedStats desired current input := by
  have h1 := reconcile_stats_of_no_failure dry ok desired current input (Or.inl hdry)
  have h2 := reconcile_stats_of_no_failure live okAlways desired current input
    (hlive.symm ▸ Or.inr (fun _ _ => rfl))
  rw [← reconcile_of_calls_succeed live okLive desired current input
    (fun op b hmem => hok (op, b) (mem_storeCalls.2 hmem))] at h2
  exact ⟨h1.trans h2.symm, h1⟩

/-- Witness of C8 on the example scenario with the deletion confirmed: one added, none
updated, one deleted, none skipped, in the dry run (whose store would reject every call)
as in the live one. -/
theorem dry_run_counters_match_live_witness :
    (reconcile { exampleConfig with DryRun := true } okNever exampleDesired exampleCurrent
        (typed ["YES"])).stats
      = (reconcile exampleConfig okAlways exampleDesired exampleCurrent (typed ["YES"])).stats ∧
    (reconcile exampleConfig okAlways exampleDesired exampleCurrent (typed ["YES"])).stats
      = ⟨1, 0, 1, 0⟩ :=
  ⟨(dry_run_counters_match_live { exampleConfig with DryRun := true } exampleConfig okNever
    okAlways exampleDesired exampleCurrent (typed ["YES"]) rfl rfl (by decide)).1, by decide⟩

/-- C9: the desired map that `main` builds holds a name exactly when some instance in the
list has a non-empty address and that fully-qualified name, which is the display name,
a dot and the suffix when a suffix is configured and the display name alone otherwise;
the name is bound to the address of the last such instance in the list.  The order in
which the map is later visited changes none of this. -/
theorem desired_map_is_last_address_per_name (config : Config)
    (vms : List (VMResource × String)) (k : String) (rangeDesired : RangeOrder) :
    (buildDesired config vms).get? k
        = ((vms.filter (fun p => decide (p.2 ≠ ""))).reverse.find?
            (fun p => decide (fqdn config p.1 = k))).map Prod.snd ∧
      (k ∈ (buildDesired config vms).keys ↔ ∃ p ∈ vms, p.2 ≠ "" ∧ fqdn config p.1 = k) ∧
      (∀ vm : VMResource, fqdn config vm
        = if config.DNSDomain ≠ "" then vm.Name ++ "." ++ config.DNSDomain else vm.Name) ∧
      (rangeDesired.apply (buildDesired config vms)).get? k
        = (buildDesired config vms).get? k := by
  refine ⟨buildDesired_get? config vms k, ?_, fun _ => rfl,
    GoMap.get?_congr (rangeDesired.perm _) k⟩
  rw [← not_iff_not, ← GoMap.get?_eq_none_iff, buildDesired_get?]
  simp only [Option.map_eq_none', List.find?_eq_none, List.mem_reverse, List.mem_filter,
    decide_eq_true_eq, not_exists, not_and, and_imp]

/-- Witness of C9: two instances named `a`, the second with another address, and one
instance without an address, under the suffix `lan`: `a.lan` is bound to the address of
the second, and `b.lan` is not in the map. -/
theorem desired_map_is_last_address_per_name_witness :
    (buildDesired { exampleConfig with DNSDomain := "lan" }
        [(⟨101, "a", "lxc", "running"⟩, "10.0.0.1"), (⟨102, "b", "qemu", "running"⟩, ""),
          (⟨103, "a", "qemu", "running"⟩, "10.0.0.3")]).get? "a.lan" = some "10.0.0.3" ∧
      (buildDesired { exampleConfig with DNSDomain := "lan" }
        [(⟨101, "a", "lxc", "running"⟩, "10.0.0.1"), (⟨102, "b", "qemu", "running"⟩, ""),
          (⟨103, "a", "qemu", "running"⟩, "10.0.0.3")]).get? "b.lan" = none :=
  ⟨(desired_map_is_last_address_per_name { exampleConfig with DNSDomain := "lan" }
      [(⟨101, "a", "lxc", "running"⟩, "10.0.0.1"), (⟨102, "b", "qemu", "running"⟩, ""),
        (⟨103, "a", "qemu", "running"⟩, "10.0.0.3")] "a.lan" RangeOrder.stored).1.trans
      (by decide), by decide⟩

/-- C10: when the answer of the store to a call depends on the call alone, visiting the
desired entries in another order gives the same counters after phase 1, the same events
and the same store calls up to their order, and for every name the same calls in the
same order. -/
theorem phase1_order_independent (config : Config) (f : StoreOp → Bool)
    (desired desired' current : GoMap) (input : List Char)
    (h : desired'.entries.Perm desired.entries) :
    (phase1 config (fun _ op => f op) desired' current (World.init input)).stats
        = (phase1 config (fun _ op => f op) desired current (World.init input)).stats ∧
      (phase1 config (fun _ op => f op) desired' current (World.init input)).trace.Perm
        (phase1 config (fun _ op => f op) desired current (World.init input)).trace ∧
      (storeCalls (phase1 config (fun _ op => f op) desired' current (World.init input)).trace).Perm
        (storeCalls (phase1 config (fun _ op => f op) desired current (World.init input)).trace) ∧
      ∀ name,
        callsOn name (phase1 config (fun _ op => f op) desired' current (World.init input)).trace
          = callsOn name
              (phase1 config (fun _ op => f op) desired current (World.init input)).trace := by
  have hperm : (phase1 config (fun _ op => f op) desired' current (World.init input)).trace.Perm
      (phase1 config (fun _ op => f op) desired current (World.init input)).trace := by
    unfold phase1
    rw [phase1_trace_of_op_oracle, phase1_trace_of_op_oracle]
    exact (List.Perm.flatMap_right _ h).append_left _
  refine ⟨?_, hperm, hperm.filterMap _, fun name => ?_⟩
  · rw [phase1_stats _ _ _ _ _ rfl, phase1_stats _ _ _ _ _ rfl]
    unfold statsOf
    rw [hperm.countP_eq, hperm.countP_eq, hperm.countP_eq, hperm.countP_eq]
  · rw [callsOn_eq, callsOn_eq, phase1_filter_of_op_oracle, phase1_filter_of_op_oracle,
      GoMap.get?_congr h]

/-- Witness of C10: the example desired map visited in its two orders against a store
that holds `a.lan` with a stale address and accepts every call. -/
theorem phase1_order_independent_witness :
    (phase1 exampleConfig (fun _ op => (fun _ => true) op) exampleDesiredSwapped staleCurrent
        (World.init [])).stats
      = (phase1 exampleConfig (fun _ op => (fun _ => true) op) exampleDesired staleCurrent
          (World.init [])).stats ∧
    storeCalls (phase1 exampleConfig okAlways exampleDesiredSwapped staleCurrent
        (World.init [])).trace
      = [(.add "b.lan" "10.0.0.2", true), (.delete "a.lan" "10.0.0.7", true),
          (.add "a.lan" "10.0.0.1", true)] ∧
    storeCalls (phase1 exampleConfig okAlways exampleDesired staleCurrent (World.init [])).trace
      = [(.delete "a.lan" "10.0.0.7", true), (.add "a.lan" "10.0.0.1", true),
          (.add "b.lan" "10.0.0.2", true)] :=
  ⟨(phase1_order_independent exampleConfig (fun _ => true) exampleDesired exampleDesiredSwapped
    staleCurrent [] (List.Perm.swap _ _ _)).1, by decide, by decide⟩

end AdguardSync
